import Mathlib

/-!
Shallow embedding of the dwarfs inode ordering subsystem
(`src/dwarfs/inode_manager.cpp`) and proofs about its specification.

The embedding follows the source: pure fragments become Lean functions, the
stateful greedy nilsimsa walk becomes explicit state passing on an `nrun`
record, machine integers become `Nat`/`Int` with explicit truncation where the
code truncates, and throwing code returns `Except`.  C++ strings are byte
strings (`List Nat`) compared byte-wise lexicographically, and C++ `while`
loops become structural recursions whose counter is the exact trip count of
the loop.  Interfaces whose definitions are not part of the sources
(`nilsimsa.h`, `script.h`, `options.h`, `entry.h`) are modelled from the spec
and marked as such.
-/

/-- Auxiliary recursion for `popCount`; the counter only bounds the number of
halvings, the value is determined by `n` alone. -/
def popCountAux : Nat → Nat → Nat
  | 0, _ => 0
  | fuel + 1, n => if n = 0 then 0 else n % 2 + popCountAux fuel (n / 2)

/-- Number of set bits of a natural number; used by the nilsimsa similarity
kernel on the 64-bit digest words. -/
def popCount (n : Nat) : Nat := popCountAux n n

/-- Modelled from the spec: `dwarfs/nilsimsa.h` is not among the sources.  The
spec defines the similarity of two 256-bit nilsimsa digests (stored as 64-bit
words) as `255 - 2 * popcount(A XOR B)`; `DWARFS_NILSIMSA_SIMILARITY` computes
exactly this value. -/
def nilsimsa_similarity (a b : List Nat) : Int :=
  255 - 2 * (((a.zipWith (fun x y => popCount (x ^^^ y)) b).foldl
      (fun s k => s + k) 0 : Nat) : Int)

/-- Byte-wise lexicographic strict comparison of byte strings — the semantics
of C++ `std::string` `operator<`. -/
def bytes_lt : List Nat → List Nat → Bool
  | [], [] => false
  | [], _ :: _ => true
  | _ :: _, [] => false
  | a :: as, b :: bs => if a < b then true else if b < a then false else bytes_lt as bs

/-- Non-strict byte-wise lexicographic comparison: `a ≤ b ↔ ¬(b < a)`. -/
def bytes_le (a b : List Nat) : Bool := !(bytes_lt b a)

/-- Modelled from the spec: `dwarfs/entry.h` is not among the sources; a file
handle exposes `path()` (full path), `name()` (basename) and `size()`. -/
structure file where
  path : List Nat
  name : List Nat
  size : Nat
deriving DecidableEq

/-- The `inode_` record of `inode_manager.cpp`: the files sharing the content,
the similarity fingerprint, the nilsimsa digest words and the assigned number
(sentinel: `uint32_t` max). -/
structure inode where
  files_ : List file := []
  similarity_hash_ : Nat := 0
  nilsimsa_similarity_hash_ : List Nat := []
  num_ : Nat := 4294967295
deriving DecidableEq

def defaultInode : inode := {}

/-- Read of the frozen inode vector, `inodes[p]`. -/
def fetch (inodes : List inode) (p : Nat) : inode := inodes.getD p defaultInode

/-- All errors in the subsystem are `DWARFS_THROW(runtime_error, msg)`. -/
inductive dwarfs_error where
  | runtime_error (msg : String)
deriving DecidableEq

/-- `inode_::set_num`: the stored number is a `uint32_t`. -/
def inode.set_num (i : inode) (n : Nat) : inode := { i with num_ := n % 4294967296 }

def inode.num (i : inode) : Nat := i.num_

/-- `inode_::similarity_hash`: throws when the inode has no file. -/
def inode.similarity_hash (i : inode) : Except dwarfs_error Nat :=
  if i.files_.isEmpty then .error (.runtime_error "inode has no file")
  else .ok i.similarity_hash_

/-- `inode_::nilsimsa_similarity_hash`: throws when the inode has no file. -/
def inode.nilsimsa_similarity_hash (i : inode) : Except dwarfs_error (List Nat) :=
  if i.files_.isEmpty then .error (.runtime_error "inode has no file")
  else .ok i.nilsimsa_similarity_hash_

/-- `inode_::set_files`: throws when the files were already set. -/
def inode.set_files (i : inode) (fv : List file) : Except dwarfs_error inode :=
  if i.files_.isEmpty then .ok { i with files_ := fv }
  else .error (.runtime_error "files already set for inode")

/-- `inode_::any`: the first file; throws when the inode has no file. -/
def inode.any (i : inode) : Except dwarfs_error file :=
  match i.files_ with
  | [] => .error (.runtime_error "inode has no file")
  | f :: _ => .ok f

/-- `inode_::size`: `any()->size()`. -/
def inode.size (i : inode) : Except dwarfs_error Nat :=
  i.any.map file.size

/-- Total variant of `any` used inside the ordering engine, whose runs under
consideration have checked that files are present. -/
def inode.anyD (i : inode) : file := i.files_.headD ⟨[], [], 0⟩

def inode.sizeD (i : inode) : Nat := i.anyD.size

def inode.pathD (i : inode) : List Nat := i.anyD.path

def inode.nameD (i : inode) : List Nat := i.anyD.name

/-- Events observable during `inode_::scan`: the single `map_file`, each
hasher update (window offset and length) and each `release_until` hint. -/
inductive scan_event where
  | map_file (path : List Nat) (size : Nat)
  | update (offset len : Nat)
  | release_until (offset : Nat)
deriving DecidableEq

/-- The 16 MiB scan window of `inode_::scan` (`16 << 20`). -/
def chunk_size : Nat := 16777216

/-- The while-loop of `inode_::scan` as a recursion on the number of full
windows still to process: hash a full window, hint release up to the window
start offset, advance; finally hash the remainder. -/
def scanLoopAux (offset size : Nat) : Nat → List scan_event
  | 0 => [scan_event.update offset size]
  | w + 1 =>
    scan_event.update offset chunk_size :: scan_event.release_until offset ::
      scanLoopAux (offset + chunk_size) (size - chunk_size) w

/-- The while-loop of `inode_::scan`; it runs `size / chunk_size` times. -/
def scanLoop (offset size : Nat) : List scan_event :=
  scanLoopAux offset size (size / chunk_size)

/-- Modelled from the spec for the flag record (`dwarfs/options.h` is not
among the sources): `needs_scan` holds when either hash was requested. -/
structure inode_options where
  with_similarity : Bool
  with_nilsimsa : Bool
deriving DecidableEq

def inode_options.needs_scan (o : inode_options) : Bool :=
  o.with_similarity || o.with_nilsimsa

/-- Trace of `inode_::scan`: picks the front file, maps it once when there is
work, then runs the windowed loop.  (`files_.front()` on an empty inode is
undefined behaviour in C++; the model returns the empty trace there.) -/
def inode.scan (i : inode) (opts : inode_options) : List scan_event :=
  if opts.needs_scan then
    match i.files_ with
    | [] => []
    | f :: _ =>
      if 0 < f.size then scan_event.map_file f.path f.size :: scanLoop 0 f.size
      else []
  else []

/-- The inner loop of `find_similar_inode`: positions are visited in the order
given by `l` (built descending from the index tail); the accumulator mirrors
`max_sim` / `max_sim_ix`, including the early exit once an update reaches
`limit`.  Returns `(max_sim_ix, max_sim)`. -/
def fsiScan (simAt : Nat → Int) (limit : Int) : List Nat → Int → Nat → Nat × Int
  | [], maxSim, maxIx => (maxIx, maxSim)
  | i :: rest, maxSim, maxIx =>
    let s := simAt i
    if maxSim < s then
      if limit ≤ s then (i, s) else fsiScan simAt limit rest s i
    else fsiScan simAt limit rest maxSim maxIx

/-- Builds the descending position list `endIx + k - 1, …, endIx + 1, endIx`. -/
def descListAux (endIx : Nat) : Nat → List Nat
  | 0 => []
  | k + 1 => (endIx + k) :: descListAux endIx k

/-- The visiting order of the `find_similar_inode` loop: positions
`size - 1, size - 2, …, endIx` (empty when `size ≤ endIx`). -/
def descList (endIx : Nat) (size : Nat) : List Nat :=
  descListAux endIx (size - endIx)

/-- Similarity of the reference digest to the digest of the inode at position
`i` of the index (`inodes[index[i]]->nilsimsa_similarity_hash()`);
out-of-range reads yield the default inode. -/
def simAt (ref_hash : List Nat) (inodes : List inode) (index : List Nat) (i : Nat) : Int :=
  nilsimsa_similarity ref_hash
    ((inodes.getD (index.getD i 0) defaultInode).nilsimsa_similarity_hash_)

/-- `find_similar_inode` of `inode_manager.cpp`: scan the index from the tail
down to `end`, tracking the best similarity strictly improving on the initial
`max_sim = 0`, with early exit at `limit`. -/
def find_similar_inode (ref_hash : List Nat) (inodes : List inode) (index : List Nat)
    (limit : Int) (endIx : Nat) : Nat × Int :=
  fsiScan (simAt ref_hash inodes index) limit (descList endIx index.length) 0 0

/-- `file_order_mode` of `dwarfs/options.h`. -/
inductive file_order_mode where
  | NONE
  | PATH
  | SCRIPT
  | SIMILARITY
  | NILSIMSA
deriving DecidableEq

/-- Modelled from the spec: `dwarfs/options.h` is not among the sources;
`file_order_options` carries the mode and the nilsimsa knobs (`nilsimsa_depth`
is the maximum depth, matching the field name the code reads). -/
structure file_order_options where
  mode : file_order_mode
  nilsimsa_depth : Nat := 20000
  nilsimsa_min_depth : Nat := 1000
  nilsimsa_limit : Nat := 255
deriving DecidableEq

/-- Modelled from the spec: `dwarfs/script.h` is not among the sources; a
script declares `has_order()` and permutes the inode vector in place. -/
structure script where
  has_order : Bool
  order : List inode → List inode

/-- Order used by `order_inodes_by_path` (`paths[a] < paths[b]`), given to the
sorting routine as the induced non-strict total order. -/
def path_le (a b : inode) : Prop := bytes_le a.pathD b.pathD = true

instance : DecidableRel path_le := fun a b =>
  inferInstanceAs (Decidable (bytes_le a.pathD b.pathD = true))

/-- Order used by `order_inodes_by_similarity`: fingerprint ascending, then
size descending, then path ascending (non-strict closure of the strict
comparator in the source). -/
def sim_le (a b : inode) : Prop :=
  a.similarity_hash_ < b.similarity_hash_ ∨
    (a.similarity_hash_ = b.similarity_hash_ ∧
      (b.sizeD < a.sizeD ∨ (a.sizeD = b.sizeD ∧ bytes_le a.pathD b.pathD = true)))

instance : DecidableRel sim_le := fun a b => by
  unfold sim_le
  exact inferInstance

/-- Order used by `presort_index`: size ascending, then basename descending,
then path descending (non-strict closure of the strict comparator in the
source); arguments are positions into the frozen inode vector. -/
def presort_le (inodes : List inode) (a b : Nat) : Prop :=
  (fetch inodes a).sizeD < (fetch inodes b).sizeD ∨
    ((fetch inodes a).sizeD = (fetch inodes b).sizeD ∧
      (bytes_lt (fetch inodes b).nameD (fetch inodes a).nameD = true ∨
        ((fetch inodes b).nameD = (fetch inodes a).nameD ∧
          bytes_le (fetch inodes b).pathD (fetch inodes a).pathD = true)))

instance (inodes : List inode) : DecidableRel (presort_le inodes) := fun a b => by
  unfold presort_le
  exact inferInstance

/-- `number_inodes`: assign `first_no++` to each inode in registry order. -/
def number_inodes (first_no : Nat) : List inode → List inode
  | [] => []
  | i :: rest => i.set_num first_no :: number_inodes (first_no + 1) rest

/-- Result of an ordering run: the registry vector after the run, the sink
invocation trace, and every value published to `progress::nilsimsa_depth`. -/
structure order_result where
  inodes_ : List inode
  sink_trace : List inode
  published : List Int
deriving DecidableEq

/-- State of `order_inodes_by_nilsimsa`: the rebuilt registry vector, the sink
trace, the remaining index, the next inode number, the adaptive depth, the
`processed` counter of the greedy loop, and the published depth values. -/
structure nrun where
  inodes_ : List inode
  sink_trace : List inode
  index : List Nat
  inode_no : Nat
  depth : Int
  processed : Nat
  published : List Int
deriving DecidableEq

/-- `finalize_inode` of `order_inodes_by_nilsimsa`: move `inodes[index.back()]`
to the rebuilt vector, pop the index, number the inode, call the sink and
return its fill signal. -/
def finalize_inode (inodes : List inode) (fills : Nat → Int) (st : nrun) : Int × nrun :=
  let ino := (fetch inodes (st.index.getLastD 0)).set_num st.inode_no
  (fills st.sink_trace.length,
   { st with inodes_ := st.inodes_ ++ [ino]
           , sink_trace := st.sink_trace ++ [ino]
           , index := st.index.dropLast
           , inode_no := st.inode_no + 1 })

/-- `std::rotate(index.begin()+ix, index.begin()+ix+1, index.end())`: move the
element at position `ix` to the back. -/
def rotate_one (l : List Nat) (ix : Nat) : List Nat :=
  l.take ix ++ l.drop (ix + 1) ++ (l.drop ix).take 1

/-- One iteration of the adaptive greedy loop of `order_inodes_by_nilsimsa`:
search the window, rotate the best candidate to the back, finalize it, adapt
the depth on the `processed` cadence and publish the depth.  C++ integer
division truncates toward zero, hence `Int.tdiv`. -/
def nstep (inodes : List inode) (maxD minD limit : Int) (fills : Nat → Int)
    (st : nrun) : nrun :=
  let refD := (st.inodes_.getLastD defaultInode).nilsimsa_similarity_hash_
  let endIx := if st.depth < (st.index.length : Int)
               then ((st.index.length : Int) - st.depth).toNat else 0
  let found := find_similar_inode refD inodes st.index limit endIx
  let st1 := { st with index := rotate_one st.index found.1 }
  let fr := finalize_inode inodes fills st1
  let newDepth :=
    if 4096 ≤ st.processed + 1 ∧ (st.processed + 1) % 32 = 0 then
      let target := Int.tdiv (fr.1 * maxD) 2048
      let d := Int.tdiv ((512 - 1) * st.depth + target) 512
      if maxD < d then maxD else if d < minD then minD else d
    else st.depth
  { fr.2 with processed := st.processed + 1
            , depth := newDepth
            , published := st.published ++ [newDepth] }

/-- The while-loop of `order_inodes_by_nilsimsa` as a recursion on the number
of remaining iterations (each iteration removes exactly one index entry, so a
counter starting at `index.length` reproduces the loop exactly). -/
def nloopAux (inodes : List inode) (maxD minD limit : Int) (fills : Nat → Int) :
    Nat → nrun → nrun
  | 0, st => st
  | fuel + 1, st =>
    if st.index = [] then st
    else nloopAux inodes maxD minD limit fills fuel (nstep inodes maxD minD limit fills st)

/-- The while-loop of `order_inodes_by_nilsimsa`. -/
def nloop (inodes : List inode) (maxD minD limit : Int) (fills : Nat → Int)
    (st : nrun) : nrun :=
  nloopAux inodes maxD minD limit fills st.index.length st

/-- The state computation of `order_inodes_by_nilsimsa`: split off the empty
inode, presort, seed, run the adaptive greedy loop.  `std::partition`
(unspecified order) and `std::sort` (unspecified tie order) are modelled
stably, which agrees with the source on the inputs the spec allows (at most
one empty inode, no fully tied sort keys). -/
def nilsimsa_run (file_order : file_order_options) (inode_no : Nat)
    (fills : Nat → Int) (inodes : List inode) : nrun :=
  let part := (List.range inodes.length).partition
    (fun i => decide (0 < (fetch inodes i).sizeD))
  let maxD : Int := file_order.nilsimsa_depth
  let minD : Int := min (file_order.nilsimsa_min_depth : Int) maxD
  let limit : Int := file_order.nilsimsa_limit
  let st0 : nrun := ⟨[], [], part.1 ++ part.2, inode_no, maxD, 0, []⟩
  let st1 := if part.2.isEmpty then st0 else (finalize_inode inodes fills st0).2
  if st1.index.isEmpty then st1
  else
    let sorted := { st1 with index := st1.index.insertionSort (presort_le inodes) }
    nloop inodes maxD minD limit fills (finalize_inode inodes fills sorted).2

/-- `order_inodes_by_nilsimsa`: run the state computation and check the final
count.  The throwing accessors the source calls along the way are hoisted
into one up-front file-presence check. -/
def order_inodes_by_nilsimsa (file_order : file_order_options) (inode_no : Nat)
    (fills : Nat → Int) (inodes : List inode) : Except dwarfs_error order_result :=
  if inodes.any (fun i => i.files_.isEmpty) then
    .error (.runtime_error "inode has no file")
  else
    if (nilsimsa_run file_order inode_no fills inodes).inodes_.length = inodes.length then
      .ok ⟨(nilsimsa_run file_order inode_no fills inodes).inodes_,
           (nilsimsa_run file_order inode_no fills inodes).sink_trace,
           (nilsimsa_run file_order inode_no fills inodes).published⟩
    else .error (.runtime_error "internal error: nilsimsa ordering failed")

/-- `order_inodes_by_path`: the source sorts an index by `paths[a] < paths[b]`
and rebuilds the vector; modelled as sorting the vector by the induced total
order, with the throwing `any()` accessor hoisted into a file-presence
check. -/
def order_inodes_by_path (inodes : List inode) : Except dwarfs_error (List inode) :=
  if inodes.any (fun i => i.files_.isEmpty) then
    .error (.runtime_error "inode has no file")
  else .ok (inodes.insertionSort path_le)

/-- `order_inodes_by_similarity`: sort by the similarity comparator, with the
throwing accessors hoisted into a file-presence check. -/
def order_inodes_by_similarity (inodes : List inode) : Except dwarfs_error (List inode) :=
  if inodes.any (fun i => i.files_.isEmpty) then
    .error (.runtime_error "inode has no file")
  else .ok (inodes.insertionSort sim_le)

/-- `inode_manager_::order_inodes`: dispatch on the mode; the non-nilsimsa
modes rearrange the registry, number it from `first_inode` and pass each inode
to the sink in registry order. -/
def order_inodes (scr : script) (file_order : file_order_options) (first_inode : Nat)
    (fills : Nat → Int) (inodes : List inode) : Except dwarfs_error order_result :=
  match file_order.mode with
  | .NILSIMSA => order_inodes_by_nilsimsa file_order first_inode fills inodes
  | .NONE =>
      let numbered := number_inodes first_inode inodes
      .ok ⟨numbered, numbered, []⟩
  | .PATH =>
      (order_inodes_by_path inodes).map (fun l =>
        let numbered := number_inodes first_inode l
        ⟨numbered, numbered, []⟩)
  | .SCRIPT =>
      if scr.has_order then
        let numbered := number_inodes first_inode (scr.order inodes)
        .ok ⟨numbered, numbered, []⟩
      else .error (.runtime_error "script cannot order inodes")
  | .SIMILARITY =>
      (order_inodes_by_similarity inodes).map (fun l =>
        let numbered := number_inodes first_inode l
        ⟨numbered, numbered, []⟩)

/-- `inode_manager_::for_each_inode`: visit the registry front to back. -/
def for_each_inode (inodes_ : List inode) : List inode :=
  inodes_.foldl (fun acc i => acc ++ [i]) []

/-- Forget the assigned number (ordering only renumbers and permutes). -/
def stripNum (i : inode) : inode := { i with num_ := 0 }

deriving instance DecidableEq for Except

/-- A small gallery of concrete inodes used by witnesses and counterexamples. -/
def cw1 : inode := { files_ := [⟨[120], [120], 1⟩], nilsimsa_similarity_hash_ := [3, 0, 0, 0] }

def cw2 : inode := { files_ := [⟨[121], [121], 1⟩], nilsimsa_similarity_hash_ := [0, 0, 0, 0] }

def cw3 : inode := { files_ := [⟨[122], [122], 1⟩], nilsimsa_similarity_hash_ := [1, 0, 0, 0] }

/-- A concrete inode whose digest has 128 bits set: its similarity to the
all-zero digest is `255 - 256 = -1`. -/
def cneg : inode :=
  { files_ := [⟨[110], [110], 1⟩],
    nilsimsa_similarity_hash_ := [18446744073709551615, 18446744073709551615, 0, 0] }

/-- A concrete empty (size 0) inode. -/
def cempty : inode := { files_ := [⟨[101], [101], 0⟩] }

/-- Concrete nilsimsa ordering options with a small window. -/
def copts : file_order_options :=
  { mode := .NILSIMSA, nilsimsa_depth := 4, nilsimsa_min_depth := 1, nilsimsa_limit := 255 }

/-- A script that declines to order. -/
def cscript : script := ⟨false, id⟩

/-- Concrete inodes with similarity fingerprints 7, 7, 3 and sizes 100, 200,
50 (the spec scenario S4). -/
def cs1 : inode := { files_ := [⟨[120], [120], 100⟩], similarity_hash_ := 7 }

def cs2 : inode := { files_ := [⟨[121], [121], 200⟩], similarity_hash_ := 7 }

def cs3 : inode := { files_ := [⟨[122], [122], 50⟩], similarity_hash_ := 3 }

/-! ## Helper lemmas: the byte-wise lexicographic order -/

theorem bytes_lt_irrefl : ∀ a : List Nat, bytes_lt a a = false := by
  intro a
  induction a with
  | nil => rfl
  | cons x xs ih => simp [bytes_lt, ih]

theorem bytes_lt_trans : ∀ a b c : List Nat,
    bytes_lt a b = true → bytes_lt b c = true → bytes_lt a c = true := by
  intro a
  induction a with
  | nil =>
    intro b c hab hbc
    cases b with
    | nil => simp [bytes_lt] at hab
    | cons y ys =>
      cases c with
      | nil => simp [bytes_lt] at hbc
      | cons z zs => simp [bytes_lt]
  | cons x xs ih =>
    intro b c hab hbc
    cases b with
    | nil => simp [bytes_lt] at hab
    | cons y ys =>
      cases c with
      | nil => simp [bytes_lt] at hbc
      | cons z zs =>
        simp only [bytes_lt] at hab hbc ⊢
        by_cases hxy : x < y
        · by_cases hyz : y < z
          · have hxz : x < z := by omega
            simp [hxz]
          · by_cases hzy : z < y
            · rw [if_neg hyz, if_pos hzy] at hbc
              simp at hbc
            · have hxz : x < z := by omega
              simp [hxz]
        · by_cases hyx : y < x
          · rw [if_neg hxy, if_pos hyx] at hab
            simp at hab
          · by_cases hyz : y < z
            · have hxz : x < z := by omega
              simp [hxz]
            · by_cases hzy : z < y
              · rw [if_neg hyz, if_pos hzy] at hbc
                simp at hbc
              · have hxz : ¬ x < z := by omega
                have hzx : ¬ z < x := by omega
                rw [if_neg hxy, if_neg hyx] at hab
                rw [if_neg hyz, if_neg hzy] at hbc
                rw [if_neg hxz, if_neg hzx]
                exact ih ys zs hab hbc

theorem bytes_lt_trichotomy : ∀ a b : List Nat,
    bytes_lt a b = true ∨ a = b ∨ bytes_lt b a = true := by
  intro a
  induction a with
  | nil =>
    intro b
    cases b with
    | nil => simp
    | cons y ys => simp [bytes_lt]
  | cons x xs ih =>
    intro b
    cases b with
    | nil => simp [bytes_lt]
    | cons y ys =>
      rcases Nat.lt_trichotomy x y with h | h | h
      · left; simp [bytes_lt, h]
      · subst h
        rcases ih ys with h2 | h2 | h2
        · left; simp [bytes_lt, h2]
        · right; left; rw [h2]
        · right; right; simp [bytes_lt, h2]
      · right; right; simp [bytes_lt, h]

theorem bytes_lt_asymm : ∀ a b : List Nat,
    bytes_lt a b = true → bytes_lt b a = false := by
  intro a b hab
  cases hba : bytes_lt b a
  · rfl
  · have := bytes_lt_trans a b a hab hba
    rw [bytes_lt_irrefl] at this
    cases this

theorem bytes_le_refl (a : List Nat) : bytes_le a a = true := by
  simp [bytes_le, bytes_lt_irrefl]

theorem bytes_le_total (a b : List Nat) : bytes_le a b = true ∨ bytes_le b a = true := by
  rcases bytes_lt_trichotomy a b with h | h | h
  · left; simp [bytes_le, bytes_lt_asymm a b h]
  · subst h; left; exact bytes_le_refl a
  · right; simp [bytes_le, bytes_lt_asymm b a h]

theorem bytes_le_of_lt (a b : List Nat) (h : bytes_lt a b = true) : bytes_le a b = true := by
  simp [bytes_le, bytes_lt_asymm a b h]

theorem bytes_lt_of_not_le (a b : List Nat) (h : ¬ bytes_le a b = true) :
    bytes_lt b a = true := by
  simp [bytes_le] at h
  exact h

theorem bytes_le_trans : ∀ a b c : List Nat,
    bytes_le a b = true → bytes_le b c = true → bytes_le a c = true := by
  intro a b c hab hbc
  simp only [bytes_le, Bool.not_eq_true'] at hab hbc ⊢
  by_contra hcon
  simp only [Bool.not_eq_false] at hcon
  rcases bytes_lt_trichotomy b a with h1 | h1 | h1
  · rw [h1] at hab
    simp at hab
  · subst h1
    rw [hcon] at hbc
    simp at hbc
  · have h2 := bytes_lt_trans c a b hcon h1
    rw [h2] at hbc
    simp at hbc

theorem bytes_le_antisymm : ∀ a b : List Nat,
    bytes_le a b = true → bytes_le b a = true → a = b := by
  intro a b hab hba
  simp only [bytes_le, Bool.not_eq_true'] at hab hba
  rcases bytes_lt_trichotomy a b with h | h | h
  · rw [h] at hba; cases hba
  · exact h
  · rw [h] at hab; cases hab

/-! ## Helper lemmas: the sort relations are total orders -/

instance : IsTotal inode path_le :=
  ⟨fun a b => bytes_le_total a.pathD b.pathD⟩

instance : IsTrans inode path_le :=
  ⟨fun a b c => bytes_le_trans a.pathD b.pathD c.pathD⟩

instance : IsTotal inode sim_le := by
  constructor
  intro a b
  unfold sim_le
  rcases Nat.lt_trichotomy a.similarity_hash_ b.similarity_hash_ with h | h | h
  · left; left; exact h
  · rcases Nat.lt_trichotomy a.sizeD b.sizeD with h2 | h2 | h2
    · right; exact Or.inr ⟨h.symm, Or.inl h2⟩
    · rcases bytes_le_total a.pathD b.pathD with h3 | h3
      · left; right; exact ⟨h, Or.inr ⟨h2, h3⟩⟩
      · right; exact Or.inr ⟨h.symm, Or.inr ⟨h2.symm, h3⟩⟩
    · left; right; exact ⟨h, Or.inl h2⟩
  · right; left; exact h

instance : IsTrans inode sim_le := by
  constructor
  intro a b c hab hbc
  unfold sim_le at hab hbc ⊢
  rcases hab with h1 | ⟨he1, h1⟩
  · rcases hbc with h2 | ⟨he2, h2⟩
    · left; omega
    · left; omega
  · rcases hbc with h2 | ⟨he2, h2⟩
    · left; omega
    · right
      refine ⟨by omega, ?_⟩
      rcases h1 with hs1 | ⟨hse1, hp1⟩
      · rcases h2 with hs2 | ⟨hse2, hp2⟩
        · left; omega
        · left; omega
      · rcases h2 with hs2 | ⟨hse2, hp2⟩
        · left; omega
        · right; exact ⟨by omega, bytes_le_trans _ _ _ hp1 hp2⟩

instance (inodes : List inode) : IsTotal Nat (presort_le inodes) := by
  constructor
  intro a b
  unfold presort_le
  rcases Nat.lt_trichotomy (fetch inodes a).sizeD
      (fetch inodes b).sizeD with h | h | h
  · left; left; exact h
  · rcases bytes_lt_trichotomy (fetch inodes b).nameD
        (fetch inodes a).nameD with h2 | h2 | h2
    · left; right; exact ⟨h, Or.inl h2⟩
    · rcases bytes_le_total (fetch inodes b).pathD
          (fetch inodes a).pathD with h3 | h3
      · left; right; exact ⟨h, Or.inr ⟨h2, h3⟩⟩
      · right; right; exact ⟨h.symm, Or.inr ⟨h2.symm, h3⟩⟩
    · right; right; exact ⟨h.symm, Or.inl h2⟩
  · right; left; exact h

instance (inodes : List inode) : IsTrans Nat (presort_le inodes) := by
  constructor
  intro a b c hab hbc
  unfold presort_le at hab hbc ⊢
  rcases hab with h1 | ⟨he1, h1⟩
  · rcases hbc with h2 | ⟨he2, h2⟩
    · left; omega
    · left; omega
  · rcases hbc with h2 | ⟨he2, h2⟩
    · left; omega
    · right
      refine ⟨by omega, ?_⟩
      rcases h1 with hn1 | ⟨hne1, hp1⟩
      · rcases h2 with hn2 | ⟨hne2, hp2⟩
        · left; exact bytes_lt_trans _ _ _ hn2 hn1
        · left; rw [hne2]; exact hn1
      · rcases h2 with hn2 | ⟨hne2, hp2⟩
        · left; rw [← hne1]; exact hn2
        · right; exact ⟨hne2.trans hne1, bytes_le_trans _ _ _ hp2 hp1⟩

/-! ## Helper lemmas: the descending scan order -/

theorem mem_descListAux (e : Nat) : ∀ k j, j ∈ descListAux e k ↔ e ≤ j ∧ j < e + k := by
  intro k
  induction k with
  | zero => intro j; simp [descListAux]
  | succ k ih =>
    intro j
    simp only [descListAux, List.mem_cons, ih]
    omega

theorem mem_descList (e s j : Nat) : j ∈ descList e s ↔ e ≤ j ∧ j < s := by
  unfold descList
  rw [mem_descListAux]
  omega

theorem descListAux_pairwise (e : Nat) :
    ∀ k, (descListAux e k).Pairwise (fun a b => b < a) := by
  intro k
  induction k with
  | zero => exact List.Pairwise.nil
  | succ k ih =>
    refine List.Pairwise.cons ?_ ih
    intro j hj
    rw [mem_descListAux] at hj
    omega

theorem descList_pairwise (e s : Nat) :
    (descList e s).Pairwise (fun a b => b < a) :=
  descListAux_pairwise e (s - e)

theorem descList_ne_nil (e s : Nat) (h : e < s) : descList e s ≠ [] := by
  unfold descList
  have : s - e = (s - e - 1) + 1 := by omega
  rw [this]
  simp [descListAux]

/-! ## Helper lemmas: the scan loop -/

theorem scanLoopAux_spec : ∀ (w offset size : Nat),
    scanLoopAux offset size w =
      ((List.range w).map (fun k =>
        [scan_event.update (offset + k * chunk_size) chunk_size,
         scan_event.release_until (offset + k * chunk_size)])).flatten ++
      [scan_event.update (offset + w * chunk_size) (size - w * chunk_size)] := by
  intro w
  induction w with
  | zero => intro offset size; simp [scanLoopAux]
  | succ w ih =>
    intro offset size
    rw [scanLoopAux, ih (offset + chunk_size) (size - chunk_size)]
    rw [List.range_succ_eq_map]
    simp only [List.map_cons, List.map_map, List.flatten_cons, Nat.zero_mul, Nat.add_zero]
    have harith : ∀ k : Nat, offset + chunk_size + k * chunk_size =
        offset + (k + 1) * chunk_size := by
      intro k
      have : (k + 1) * chunk_size = k * chunk_size + chunk_size := Nat.succ_mul k chunk_size
      omega
    have hrem : size - chunk_size - w * chunk_size = size - (w + 1) * chunk_size := by
      have : (w + 1) * chunk_size = w * chunk_size + chunk_size := Nat.succ_mul w chunk_size
      omega
    rw [hrem, harith w]
    have hfun : ((fun k => [scan_event.update (offset + k * chunk_size) chunk_size,
          scan_event.release_until (offset + k * chunk_size)]) ∘ Nat.succ) =
        fun k => [scan_event.update (offset + chunk_size + k * chunk_size) chunk_size,
          scan_event.release_until (offset + chunk_size + k * chunk_size)] := by
      funext k
      simp only [Function.comp_apply, Nat.succ_eq_add_one]
      rw [harith k]
    rw [hfun]
    simp

/-- C9: each of `similarity_hash`, `nilsimsa_similarity_hash`, `any` and
`size` raises an error if and only if the inode's file set is empty; with
files present each returns a value. -/
theorem inode_getters_error_iff (i : inode) :
    ((∃ e, i.similarity_hash = .error e) ↔ i.files_ = []) ∧
    ((∃ e, i.nilsimsa_similarity_hash = .error e) ↔ i.files_ = []) ∧
    ((∃ e, i.any = .error e) ↔ i.files_ = []) ∧
    ((∃ e, i.size = .error e) ↔ i.files_ = []) ∧
    (i.files_ ≠ [] →
      (∃ v, i.similarity_hash = .ok v) ∧ (∃ v, i.nilsimsa_similarity_hash = .ok v) ∧
      (∃ v, i.any = .ok v) ∧ (∃ v, i.size = .ok v)) := by
  cases hf : i.files_ with
  | nil =>
    simp [inode.similarity_hash, inode.nilsimsa_similarity_hash, inode.any,
      inode.size, hf, Except.map]
  | cons f rest =>
    simp [inode.similarity_hash, inode.nilsimsa_similarity_hash, inode.any,
      inode.size, hf, Except.map]

/-- C9 witness: the characterization applied to the concrete inode `cw1`
(which has one file) and to the default inode (which has none). -/
theorem inode_getters_error_iff_witness :
    (((∃ e, cw1.similarity_hash = .error e) ↔ cw1.files_ = []) ∧
      ((∃ e, cw1.nilsimsa_similarity_hash = .error e) ↔ cw1.files_ = []) ∧
      ((∃ e, cw1.any = .error e) ↔ cw1.files_ = []) ∧
      ((∃ e, cw1.size = .error e) ↔ cw1.files_ = []) ∧
      (cw1.files_ ≠ [] →
        (∃ v, cw1.similarity_hash = .ok v) ∧ (∃ v, cw1.nilsimsa_similarity_hash = .ok v) ∧
        (∃ v, cw1.any = .ok v) ∧ (∃ v, cw1.size = .ok v))) ∧
    ((∃ e, defaultInode.any = .error e) ↔ defaultInode.files_ = []) :=
  ⟨inode_getters_error_iff cw1, (inode_getters_error_iff defaultInode).2.2.1⟩

/-- C8 counterexample: for a file of exactly one full 16 MiB window, `scan`
calls `release_until 0` (the window's start offset) after hashing the window
`[0, 16 MiB)`, and never calls `release_until` with the window's end offset
`16777216` — refuting the claim that the call uses the window's end. -/
theorem scan_release_until_cex :
    inode.scan { files_ := [⟨[98], [98], 16777216⟩] } ⟨true, false⟩ =
      [scan_event.map_file [98] 16777216, scan_event.update 0 16777216,
       scan_event.release_until 0, scan_event.update 16777216 0] ∧
    scan_event.release_until 16777216 ∉
      inode.scan { files_ := [⟨[98], [98], 16777216⟩] } ⟨true, false⟩ := by
  decide

/-- C8 (amended): when a scan is requested and the file spans at least one
full 16 MiB window, `scan` maps the file exactly once and then, for each full
window `[k·16MiB, (k+1)·16MiB)` in order, hashes the window and calls
`release_until` with the window's start offset `k·16MiB`, before the final
hasher update on the remainder. -/
theorem scan_window_trace (i : inode) (f : file) (rest : List file)
    (opts : inode_options)
    (hf : i.files_ = f :: rest) (hscan : opts.needs_scan = true)
    (hsize : chunk_size ≤ f.size) :
    i.scan opts =
      scan_event.map_file f.path f.size ::
        (((List.range (f.size / chunk_size)).map (fun k =>
          [scan_event.update (k * chunk_size) chunk_size,
           scan_event.release_until (k * chunk_size)])).flatten ++
         [scan_event.update (f.size / chunk_size * chunk_size) (f.size % chunk_size)]) := by
  have hchunkpos : 0 < chunk_size := by decide
  have hpos : 0 < f.size := by omega
  unfold inode.scan
  rw [hscan, hf]
  simp only [if_true, hpos, if_pos]
  unfold scanLoop
  rw [scanLoopAux_spec]
  simp only [Nat.zero_add]
  have hmod : f.size - f.size / chunk_size * chunk_size = f.size % chunk_size := by
    simp only [chunk_size]
    omega
  rw [hmod]

/-- C8 witness: the window trace of a 20,000,000-byte file (one full window
plus remainder). -/
theorem scan_window_trace_witness :
    inode.scan { files_ := [⟨[99], [99], 20000000⟩] } ⟨false, true⟩ =
      scan_event.map_file [99] 20000000 ::
        (((List.range (20000000 / chunk_size)).map (fun k =>
          [scan_event.update (k * chunk_size) chunk_size,
           scan_event.release_until (k * chunk_size)])).flatten ++
         [scan_event.update (20000000 / chunk_size * chunk_size) (20000000 % chunk_size)]) :=
  scan_window_trace _ ⟨[99], [99], 20000000⟩ [] ⟨false, true⟩ rfl rfl (by decide)

/-! ## Helper lemmas: the find_similar_inode scan -/

theorem fsiScan_skip (simAt : Nat → Int) (limit : Int) :
    ∀ (pre : List Nat) (m0 : Int) (ix0 : Nat),
      (∀ i ∈ pre, simAt i < limit) → (m0 = 0 ∨ m0 < limit) →
      ∃ m1 ix1, (m1 = 0 ∨ m1 < limit) ∧
        ∀ rest, fsiScan simAt limit (pre ++ rest) m0 ix0 = fsiScan simAt limit rest m1 ix1 := by
  intro pre
  induction pre with
  | nil =>
    intro m0 ix0 _ hm0
    exact ⟨m0, ix0, hm0, fun rest => rfl⟩
  | cons i pre ih =>
    intro m0 ix0 hall hm0
    have hi : simAt i < limit := hall i (by simp)
    by_cases hcmp : m0 < simAt i
    · have hnoexit : ¬ limit ≤ simAt i := by omega
      obtain ⟨m1, ix1, hinv, heq⟩ :=
        ih (simAt i) i (fun j hj => hall j (by simp [hj])) (Or.inr hi)
      refine ⟨m1, ix1, hinv, fun rest => ?_⟩
      rw [List.cons_append]
      simp only [fsiScan]
      rw [if_pos hcmp, if_neg hnoexit]
      exact heq rest
    · obtain ⟨m1, ix1, hinv, heq⟩ := ih m0 ix0 (fun j hj => hall j (by simp [hj])) hm0
      refine ⟨m1, ix1, hinv, fun rest => ?_⟩
      rw [List.cons_append]
      simp only [fsiScan]
      rw [if_neg hcmp]
      exact heq rest

theorem fsiScan_no_exit_spec (simAt : Nat → Int) (limit : Int) :
    ∀ (l : List Nat) (m0 : Int) (ix0 : Nat),
      l.Pairwise (fun a b => b < a) →
      (∀ i ∈ l, simAt i < limit) →
      (m0 ≤ (fsiScan simAt limit l m0 ix0).2 ∧
       (∀ i ∈ l, simAt i ≤ (fsiScan simAt limit l m0 ix0).2)) ∧
      (((fsiScan simAt limit l m0 ix0).1 = ix0 ∧ (fsiScan simAt limit l m0 ix0).2 = m0) ∨
        ((fsiScan simAt limit l m0 ix0).1 ∈ l ∧
         simAt (fsiScan simAt limit l m0 ix0).1 = (fsiScan simAt limit l m0 ix0).2 ∧
         m0 < (fsiScan simAt limit l m0 ix0).2)) ∧
      (m0 < (fsiScan simAt limit l m0 ix0).2 →
        ∀ j ∈ l, (fsiScan simAt limit l m0 ix0).1 < j →
          simAt j < (fsiScan simAt limit l m0 ix0).2) := by
  intro l
  induction l with
  | nil =>
    intro m0 ix0 _ _
    exact ⟨⟨le_refl _, by simp⟩, Or.inl ⟨rfl, rfl⟩, by simp⟩
  | cons i l ih =>
    intro m0 ix0 hpw hall
    have hi : simAt i < limit := hall i (by simp)
    have hpw2 : l.Pairwise (fun a b => b < a) := hpw.of_cons
    have hhead : ∀ j ∈ l, j < i := fun j hj => (List.pairwise_cons.mp hpw).1 j hj
    by_cases hcmp : m0 < simAt i
    · have hnoexit : ¬ limit ≤ simAt i := by omega
      have hred : fsiScan simAt limit (i :: l) m0 ix0 = fsiScan simAt limit l (simAt i) i := by
        simp only [fsiScan]
        rw [if_pos hcmp, if_neg hnoexit]
      rw [hred]
      obtain ⟨⟨ha1, ha2⟩, hc, hd⟩ := ih (simAt i) i hpw2 (fun j hj => hall j (by simp [hj]))
      refine ⟨⟨by omega, ?_⟩, ?_, ?_⟩
      · intro j hj
        rcases List.mem_cons.mp hj with rfl | hj2
        · omega
        · exact ha2 j hj2
      · rcases hc with ⟨hix, hval⟩ | ⟨hmem, hsim, hlt⟩
        · right
          refine ⟨by simp [hix], ?_, by omega⟩
          rw [hix, hval]
        · right
          exact ⟨by simp [hmem], hsim, by omega⟩
      · intro hm0lt j hj hgt
        rcases List.mem_cons.mp hj with rfl | hj2
        · rcases hc with ⟨hix, hval⟩ | ⟨hmem, hsim, hlt⟩
          · rw [hix] at hgt
            omega
          · omega
        · rcases hc with ⟨hix, hval⟩ | ⟨hmem, hsim, hlt⟩
          · rw [hix] at hgt
            have := hhead j hj2
            omega
          · exact hd hlt j hj2 hgt
    · have hred : fsiScan simAt limit (i :: l) m0 ix0 = fsiScan simAt limit l m0 ix0 := by
        simp only [fsiScan]
        rw [if_neg hcmp]
      rw [hred]
      obtain ⟨⟨ha1, ha2⟩, hc, hd⟩ := ih m0 ix0 hpw2 (fun j hj => hall j (by simp [hj]))
      refine ⟨⟨ha1, ?_⟩, ?_, ?_⟩
      · intro j hj
        rcases List.mem_cons.mp hj with rfl | hj2
        · omega
        · exact ha2 j hj2
      · rcases hc with ⟨hix, hval⟩ | ⟨hmem, hsim, hlt⟩
        · exact Or.inl ⟨hix, hval⟩
        · exact Or.inr ⟨by simp [hmem], hsim, hlt⟩
      · intro hm0lt j hj hgt
        rcases List.mem_cons.mp hj with rfl | hj2
        · omega
        · exact hd hm0lt j hj2 hgt

/-- C4: whenever the scan of `find_similar_inode` reaches a candidate whose
similarity is at least `limit` (with `limit` in `0..255`), after scanning only
candidates below `limit`, the scan stops there — the result is that candidate
and its similarity, independent of everything deeper in the window. -/
theorem find_similar_inode_early_exit
    (ref : List Nat) (inodes : List inode) (index : List Nat) (limit : Int)
    (endIx j : Nat) (pre post : List Nat)
    (hdec : descList endIx index.length = pre ++ j :: post)
    (hpre : ∀ i ∈ pre, simAt ref inodes index i < limit)
    (hj : limit ≤ simAt ref inodes index j)
    (hlim0 : 0 ≤ limit) (hlim255 : limit ≤ 255) :
    find_similar_inode ref inodes index limit endIx = (j, simAt ref inodes index j) := by
  unfold find_similar_inode
  rw [hdec]
  obtain ⟨m1, ix1, hinv, heq⟩ :=
    fsiScan_skip (simAt ref inodes index) limit pre 0 0 hpre (Or.inl rfl)
  rw [heq (j :: post)]
  have hs0 : simAt ref inodes index j ≠ 0 := by
    unfold simAt nilsimsa_similarity
    intro h
    omega
  have hm1lt : m1 < simAt ref inodes index j := by
    rcases hinv with h | h
    · omega
    · omega
  simp only [fsiScan]
  rw [if_pos hm1lt, if_pos hj]

/-- C4 witness: with reference digest all-zero and index `[0,1,2]`, the tail
candidate (position 2, similarity 253) already reaches the limit 252, so the
scan exits at once with `(2, 253)`. -/
theorem find_similar_inode_early_exit_witness :
    find_similar_inode [0, 0, 0, 0] [cw1, cw2, cw3] [0, 1, 2] 252 0 = (2, 253) := by
  have h := find_similar_inode_early_exit [0, 0, 0, 0] [cw1, cw2, cw3] [0, 1, 2] 252 0 2
    [] [1, 0] (by decide) (by simp) (by decide) (by decide) (by decide)
  rw [h]
  decide

/-- C2 counterexample: with reference digest all-zero, index `[0, 1]` and
search window consisting only of position 1 (whose candidate has similarity
−1 < 0), the scan never updates its accumulator and returns the initial
position 0 — an inode outside the search window; the claim that the chosen
inode always lies within the window (and is maximal there) is false. -/
theorem nilsimsa_window_choice_cex :
    (find_similar_inode [0, 0, 0, 0] [cw1, cneg] [0, 1] 255 1).1 = 0 ∧
    descList 1 2 = [1] ∧
    (find_similar_inode [0, 0, 0, 0] [cw1, cneg] [0, 1] 255 1).1 ∉ descList 1 2 ∧
    simAt [0, 0, 0, 0] [cw1, cneg] [0, 1] 1 = -1 := by
  decide

/-- C2 (amended): when some window entry has positive similarity and the
window maximum is below the early-exit limit, the chosen position lies within
the search window (the last `depth` entries, i.e. positions `endIx ≤ p <
index.length`), its similarity is the window maximum, and every window
position scanned earlier (larger position) is strictly below the maximum —
first-found-from-the-tail wins ties. -/
theorem find_similar_inode_window_max
    (ref : List Nat) (inodes : List inode) (index : List Nat) (limit : Int)
    (endIx jmax : Nat) (M : Int)
    (hjmem : jmax ∈ descList endIx index.length)
    (hjval : simAt ref inodes index jmax = M)
    (hmax : ∀ i ∈ descList endIx index.length, simAt ref inodes index i ≤ M)
    (hpos : 0 < M) (hlim : M < limit) :
    (find_similar_inode ref inodes index limit endIx).1 ∈ descList endIx index.length ∧
    simAt ref inodes index (find_similar_inode ref inodes index limit endIx).1 = M ∧
    (find_similar_inode ref inodes index limit endIx).2 = M ∧
    (∀ j ∈ descList endIx index.length,
      (find_similar_inode ref inodes index limit endIx).1 < j →
        simAt ref inodes index j < M) := by
  unfold find_similar_inode
  have hall : ∀ i ∈ descList endIx index.length, simAt ref inodes index i < limit :=
    fun i hi => lt_of_le_of_lt (hmax i hi) hlim
  obtain ⟨⟨ha1, ha2⟩, hc, hd⟩ := fsiScan_no_exit_spec (simAt ref inodes index) limit
    (descList endIx index.length) 0 0 (descList_pairwise endIx index.length) hall
  rcases hc with ⟨hix, hval⟩ | ⟨hmem, hsim, hlt⟩
  · exfalso
    have h2 := ha2 jmax hjmem
    omega
  · have hge := ha2 jmax hjmem
    have hle := hmax _ hmem
    refine ⟨hmem, by omega, by omega, ?_⟩
    intro j hj hgt
    have := hd hlt j hj hgt
    omega

/-- C2 witness: window positions `[2, 1]` (endIx 1), candidate similarities
253 (position 2) and 251 (position 1), maximum 253 below limit 255: the scan
picks position 2 with similarity 253. -/
theorem find_similar_inode_window_max_witness :
    (find_similar_inode [0, 0, 0, 0] [cw1, cw2, cw3] [1, 0, 2] 255 1).1 ∈ descList 1 3 ∧
    simAt [0, 0, 0, 0] [cw1, cw2, cw3] [1, 0, 2]
      (find_similar_inode [0, 0, 0, 0] [cw1, cw2, cw3] [1, 0, 2] 255 1).1 = 253 ∧
    (find_similar_inode [0, 0, 0, 0] [cw1, cw2, cw3] [1, 0, 2] 255 1).2 = 253 ∧
    (∀ j ∈ descList 1 3,
      (find_similar_inode [0, 0, 0, 0] [cw1, cw2, cw3] [1, 0, 2] 255 1).1 < j →
        simAt [0, 0, 0, 0] [cw1, cw2, cw3] [1, 0, 2] j < 253) :=
  find_similar_inode_window_max [0, 0, 0, 0] [cw1, cw2, cw3] [1, 0, 2] 255 1 2 253
    (by decide) (by decide) (by decide) (by decide) (by decide)

/-! ## Helper lemmas: the nilsimsa loop -/

theorem nloopAux_invariant (inodes : List inode) (maxD minD limit : Int)
    (fills : Nat → Int) (P : nrun → Prop)
    (hstep : ∀ st, st.index ≠ [] → P st → P (nstep inodes maxD minD limit fills st)) :
    ∀ fuel st, P st → P (nloopAux inodes maxD minD limit fills fuel st) := by
  intro fuel
  induction fuel with
  | zero =>
    intro st h
    exact h
  | succ fuel ih =>
    intro st h
    simp only [nloopAux]
    by_cases hidx : st.index = []
    · rw [if_pos hidx]
      exact h
    · rw [if_neg hidx]
      exact ih _ (hstep st hidx h)

theorem finalize_inode_depth (inodes : List inode) (fills : Nat → Int) (st : nrun) :
    (finalize_inode inodes fills st).2.depth = st.depth := rfl

theorem finalize_inode_published (inodes : List inode) (fills : Nat → Int) (st : nrun) :
    (finalize_inode inodes fills st).2.published = st.published := rfl

theorem nstep_depth_clamp (inodes : List inode) (maxD minD limit : Int)
    (fills : Nat → Int) (hminmax : minD ≤ maxD) (st : nrun)
    (hdepth : minD ≤ st.depth ∧ st.depth ≤ maxD) :
    minD ≤ (nstep inodes maxD minD limit fills st).depth ∧
      (nstep inodes maxD minD limit fills st).depth ≤ maxD := by
  simp only [nstep]
  split_ifs <;> omega

theorem nstep_published (inodes : List inode) (maxD minD limit : Int)
    (fills : Nat → Int) (st : nrun) :
    (nstep inodes maxD minD limit fills st).published =
      st.published ++ [(nstep inodes maxD minD limit fills st).depth] := rfl

theorem nloop_published_bounds (inodes : List inode) (maxD minD limit : Int)
    (fills : Nat → Int) (hminmax : minD ≤ maxD) (st : nrun)
    (h : (minD ≤ st.depth ∧ st.depth ≤ maxD) ∧
      ∀ d ∈ st.published, minD ≤ d ∧ d ≤ maxD) :
    ∀ d ∈ (nloop inodes maxD minD limit fills st).published, minD ≤ d ∧ d ≤ maxD := by
  have hinv := nloopAux_invariant inodes maxD minD limit fills
    (fun s => (minD ≤ s.depth ∧ s.depth ≤ maxD) ∧
      ∀ d ∈ s.published, minD ≤ d ∧ d ≤ maxD)
    (fun s _ hP => by
      refine ⟨nstep_depth_clamp inodes maxD minD limit fills hminmax s hP.1, ?_⟩
      rw [nstep_published]
      intro d hd
      rcases List.mem_append.mp hd with h1 | h1
      · exact hP.2 d h1
      · have hd2 : d = (nstep inodes maxD minD limit fills s).depth := by
          simpa using h1
        rw [hd2]
        exact nstep_depth_clamp inodes maxD minD limit fills hminmax s hP.1)
    st.index.length st h
  exact hinv.2

theorem nilsimsa_run_published (fo : file_order_options) (first : Nat)
    (fills : Nat → Int) (inodes : List inode) :
    ∀ d ∈ (nilsimsa_run fo first fills inodes).published,
      min (fo.nilsimsa_min_depth : Int) (fo.nilsimsa_depth : Int) ≤ d ∧
        d ≤ (fo.nilsimsa_depth : Int) := by
  have hminmax : min (fo.nilsimsa_min_depth : Int) (fo.nilsimsa_depth : Int) ≤
      (fo.nilsimsa_depth : Int) := min_le_right _ _
  simp only [nilsimsa_run]
  split_ifs with h1 h2 h3
  · intro d hd
    exact absurd hd (List.not_mem_nil d)
  · exact nloop_published_bounds inodes _ _ _ fills hminmax _
      ⟨⟨hminmax, le_refl _⟩, fun d hd => absurd hd (List.not_mem_nil d)⟩
  · intro d hd
    exact absurd hd (List.not_mem_nil d)
  · exact nloop_published_bounds inodes _ _ _ fills hminmax _
      ⟨⟨hminmax, le_refl _⟩, fun d hd => absurd hd (List.not_mem_nil d)⟩

/-- C5: during a NILSIMSA ordering run with `nilsimsa_min_depth ≤
nilsimsa_max_depth`, every value published to `progress::nilsimsa_depth` lies
in `[nilsimsa_min_depth, nilsimsa_max_depth]`. -/
theorem nilsimsa_depth_clamp_range (scr : script) (opts : file_order_options)
    (first : Nat) (fills : Nat → Int) (inodes : List inode) (r : order_result)
    (hmode : opts.mode = .NILSIMSA)
    (hminmax : opts.nilsimsa_min_depth ≤ opts.nilsimsa_depth)
    (hok : order_inodes scr opts first fills inodes = .ok r) :
    ∀ d ∈ r.published,
      (opts.nilsimsa_min_depth : Int) ≤ d ∧ d ≤ (opts.nilsimsa_depth : Int) := by
  have hdisp : order_inodes scr opts first fills inodes =
      order_inodes_by_nilsimsa opts first fills inodes := by
    unfold order_inodes
    rw [hmode]
  rw [hdisp] at hok
  unfold order_inodes_by_nilsimsa at hok
  by_cases h1 : inodes.any (fun i => i.files_.isEmpty) = true
  · rw [if_pos h1] at hok
    simp at hok
  · rw [if_neg h1] at hok
    by_cases h2 : (nilsimsa_run opts first fills inodes).inodes_.length = inodes.length
    · rw [if_pos h2] at hok
      injection hok with hpay
      subst hpay
      intro d hd
      have hbound := nilsimsa_run_published opts first fills inodes d hd
      have hcast : (opts.nilsimsa_min_depth : Int) ≤ (opts.nilsimsa_depth : Int) := by
        exact_mod_cast hminmax
      rw [min_eq_left hcast] at hbound
      exact hbound
    · rw [if_neg h2] at hok
      simp at hok

/-- C5 witness: a concrete three-inode NILSIMSA run with `min_depth = 1` and
`max_depth = 4` publishes exactly `[4]`, and the published value 4 is within
range. -/
theorem nilsimsa_depth_clamp_range_witness :
    (copts.nilsimsa_min_depth : Int) ≤ (4 : Int) ∧
      (4 : Int) ≤ (copts.nilsimsa_depth : Int) := by
  have h := nilsimsa_depth_clamp_range cscript copts 10 (fun _ => 0) [cw1, cw2, cempty]
    ⟨[cempty.set_num 10, cw1.set_num 11, cw2.set_num 12],
     [cempty.set_num 10, cw1.set_num 11, cw2.set_num 12], [4]⟩
    rfl (by decide) (by decide)
  exact h 4 (by decide)

/-- C6: the greedy loop updates the search depth exactly when the loop's
emission counter `processed` (incremented once per loop emission) has reached
4096 and is a multiple of 32; an update sets depth to
`((512−1)·depth + fill·max_depth/2048) / 512` in C++ (truncating) integer
arithmetic, where `fill` is the sink's return value for the just-emitted
inode, then clamps into `[min_depth, max_depth]`; otherwise the depth is
unchanged.  The published value is always the resulting depth. -/
theorem nilsimsa_depth_update (inodes : List inode) (maxD minD limit : Int)
    (fills : Nat → Int) (st : nrun) :
    (nstep inodes maxD minD limit fills st).processed = st.processed + 1 ∧
    (nstep inodes maxD minD limit fills st).published =
      st.published ++ [(nstep inodes maxD minD limit fills st).depth] ∧
    ((4096 ≤ (nstep inodes maxD minD limit fills st).processed ∧
        (nstep inodes maxD minD limit fills st).processed % 32 = 0) →
      (nstep inodes maxD minD limit fills st).depth =
        (let fill := fills st.sink_trace.length
         let target := Int.tdiv (fill * maxD) 2048
         let d := Int.tdiv ((512 - 1) * st.depth + target) 512
         if maxD < d then maxD else if d < minD then minD else d)) ∧
    (¬ (4096 ≤ (nstep inodes maxD minD limit fills st).processed ∧
        (nstep inodes maxD minD limit fills st).processed % 32 = 0) →
      (nstep inodes maxD minD limit fills st).depth = st.depth) := by
  refine ⟨rfl, rfl, ?_, ?_⟩
  · intro h
    have hp : (nstep inodes maxD minD limit fills st).processed = st.processed + 1 := rfl
    rw [hp] at h
    simp only [nstep, finalize_inode]
    rw [if_pos h]
  · intro h
    have hp : (nstep inodes maxD minD limit fills st).processed = st.processed + 1 := rfl
    rw [hp] at h
    simp only [nstep, finalize_inode]
    rw [if_neg h]

/-- C6 witness: at `processed = 4255` (so the 4256th loop emission, a multiple
of 32 past 4096), with fill 1000, `max_depth = 100`, `min_depth = 10` and
previous depth 100, the updated depth is `(511·100 + 1000·100/2048)/512 =
99`. -/
theorem nilsimsa_depth_update_witness :
    (nstep [cw1, cw2] 100 10 255 (fun _ => 1000)
      ⟨[cw2.set_num 5], [cw2.set_num 5], [0, 1], 6, 100, 4255, []⟩).depth = 99 := by
  have h := (nilsimsa_depth_update [cw1, cw2] 100 10 255 (fun _ => 1000)
    ⟨[cw2.set_num 5], [cw2.set_num 5], [0, 1], 6, 100, 4255, []⟩).2.2.1 (by decide)
  rw [h]
  decide

/-! ## Helper lemmas: numbering -/

theorem mem_number_inodes : ∀ (first : Nat) (l : List inode) (y : inode),
    y ∈ number_inodes first l → ∃ x ∈ l, ∃ n, y = x.set_num n := by
  intro first l
  induction l generalizing first with
  | nil =>
    intro y hy
    simp [number_inodes] at hy
  | cons x xs ih =>
    intro y hy
    simp only [number_inodes, List.mem_cons] at hy
    rcases hy with rfl | hy
    · exact ⟨x, by simp, first, rfl⟩
    · obtain ⟨z, hz, n, rfl⟩ := ih (first + 1) y hy
      exact ⟨z, by simp [hz], n, rfl⟩

theorem number_inodes_pairwise (R : inode → inode → Prop)
    (hR : ∀ (a b : inode) (n m : Nat), R a b → R (a.set_num n) (b.set_num m)) :
    ∀ (first : Nat) (l : List inode), l.Pairwise R → (number_inodes first l).Pairwise R := by
  intro first l
  induction l generalizing first with
  | nil =>
    intro _
    exact List.Pairwise.nil
  | cons x xs ih =>
    intro hpw
    rcases List.pairwise_cons.mp hpw with ⟨hx, hxs⟩
    refine List.Pairwise.cons ?_ (ih (first + 1) hxs)
    intro y hy
    obtain ⟨z, hz, n, rfl⟩ := mem_number_inodes (first + 1) xs y hy
    exact hR x z first n (hx z hz)

/-- C7: in SIMILARITY mode the emitted sequence is non-decreasing in
similarity fingerprint; among equal fingerprints non-increasing in size;
among equal (fingerprint, size) non-decreasing in path. -/
theorem similarity_order_sorted (scr : script) (opts : file_order_options)
    (first : Nat) (fills : Nat → Int) (inodes : List inode) (r : order_result)
    (hmode : opts.mode = .SIMILARITY)
    (hfiles : ∀ i ∈ inodes, i.files_ ≠ [])
    (hok : order_inodes scr opts first fills inodes = .ok r) :
    ∀ (a b : Fin r.sink_trace.length), a < b →
      (r.sink_trace.get a).similarity_hash_ ≤ (r.sink_trace.get b).similarity_hash_ ∧
      ((r.sink_trace.get a).similarity_hash_ = (r.sink_trace.get b).similarity_hash_ →
        (r.sink_trace.get b).sizeD ≤ (r.sink_trace.get a).sizeD) ∧
      (((r.sink_trace.get a).similarity_hash_ = (r.sink_trace.get b).similarity_hash_ ∧
        (r.sink_trace.get a).sizeD = (r.sink_trace.get b).sizeD) →
        bytes_le (r.sink_trace.get a).pathD (r.sink_trace.get b).pathD = true) := by
  have hdisp : order_inodes scr opts first fills inodes =
      (order_inodes_by_similarity inodes).map (fun l =>
        let numbered := number_inodes first l
        ⟨numbered, numbered, []⟩) := by
    unfold order_inodes
    rw [hmode]
  rw [hdisp] at hok
  unfold order_inodes_by_similarity at hok
  by_cases h1 : inodes.any (fun i => i.files_.isEmpty) = true
  · rw [if_pos h1] at hok
    simp [Except.map] at hok
  · rw [if_neg h1] at hok
    simp only [Except.map] at hok
    injection hok with hpay
    subst hpay
    dsimp only
    have hsorted : (inodes.insertionSort sim_le).Pairwise sim_le :=
      List.sorted_insertionSort sim_le inodes
    have hnum : (number_inodes first (inodes.insertionSort sim_le)).Pairwise sim_le :=
      number_inodes_pairwise sim_le (fun a b n m h => h) first _ hsorted
    intro a b hab
    have hrel := List.pairwise_iff_get.mp hnum a b hab
    refine ⟨?_, ?_, ?_⟩
    · rcases hrel with h | ⟨he, h2⟩
      · omega
      · omega
    · intro heq
      rcases hrel with h | ⟨he, h2⟩
      · omega
      · rcases h2 with h3 | ⟨h4, h5⟩
        · omega
        · omega
    · intro hpair
      rcases hrel with h | ⟨he, h2⟩
      · exfalso
        omega
      · rcases h2 with h3 | ⟨h4, h5⟩
        · exfalso
          omega
        · exact h5

/-- C7 witness: the S4 scenario — fingerprints (7, 7, 3), sizes (100, 200,
50) — is emitted as fingerprint 3 first, then the two fingerprint-7 inodes by
decreasing size; positions 0 and 1 of the trace satisfy the sorted-sequence
property. -/
theorem similarity_order_sorted_witness :
    (cs3.set_num 0).similarity_hash_ ≤ (cs2.set_num 1).similarity_hash_ ∧
    ((cs3.set_num 0).similarity_hash_ = (cs2.set_num 1).similarity_hash_ →
      (cs2.set_num 1).sizeD ≤ (cs3.set_num 0).sizeD) ∧
    (((cs3.set_num 0).similarity_hash_ = (cs2.set_num 1).similarity_hash_ ∧
      (cs3.set_num 0).sizeD = (cs2.set_num 1).sizeD) →
      bytes_le (cs3.set_num 0).pathD (cs2.set_num 1).pathD = true) :=
  similarity_order_sorted cscript { mode := .SIMILARITY } 0 (fun _ => 0)
    [cs1, cs2, cs3]
    ⟨[cs3.set_num 0, cs2.set_num 1, cs1.set_num 2],
     [cs3.set_num 0, cs2.set_num 1, cs1.set_num 2], []⟩
    rfl (by decide) (by decide) ⟨0, by decide⟩ ⟨1, by decide⟩ (by decide)

/-! ## Helper lemmas: positions, last elements, traces -/

theorem map_fetch_range (inodes : List inode) :
    (List.range inodes.length).map (fetch inodes) = inodes := by
  apply List.ext_get
  · simp
  · intro n h1 h2
    rw [List.get_map]
    rw [List.get_range]
    rw [fetch, List.getD_eq_get _ _ h2]

theorem mem_fetch (inodes : List inode) (i : inode) (hi : i ∈ inodes) :
    ∃ q, q < inodes.length ∧ fetch inodes q = i := by
  obtain ⟨⟨q, hq⟩, rfl⟩ := List.mem_iff_get.mp hi
  refine ⟨q, hq, ?_⟩
  rw [fetch, List.getD_eq_get _ _ hq]

theorem presort_le_refl (inodes : List inode) (q : Nat) : presort_le inodes q q :=
  Or.inr ⟨rfl, Or.inr ⟨rfl, bytes_le_refl _⟩⟩

theorem getLastD_mem {α : Type} : ∀ (l : List α) (d : α), l ≠ [] → l.getLastD d ∈ l := by
  intro l
  induction l with
  | nil =>
    intro d h
    exact absurd rfl h
  | cons a l ih =>
    intro d _
    rw [List.getLastD_cons]
    by_cases hl : l = []
    · subst hl
      simp [List.getLastD]
    · exact List.mem_cons_of_mem a (ih a hl)

theorem pairwise_getLastD_max {α : Type} (R : α → α → Prop) (hrefl : ∀ a, R a a) :
    ∀ (l : List α) (d : α), l ≠ [] → l.Pairwise R → ∀ x ∈ l, R x (l.getLastD d) := by
  intro l
  induction l with
  | nil =>
    intro d h
    exact absurd rfl h
  | cons a l ih =>
    intro d _ hpw x hx
    rcases List.pairwise_cons.mp hpw with ⟨ha, hl⟩
    rw [List.getLastD_cons]
    by_cases hl2 : l = []
    · subst hl2
      rcases List.mem_cons.mp hx with rfl | hx2
      · simp only [List.getLastD]
        exact hrefl x
      · exact absurd hx2 (List.not_mem_nil x)
    · rcases List.mem_cons.mp hx with rfl | hx2
      · exact ha _ (getLastD_mem l x hl2)
      · exact ih a hl2 hl x hx2

theorem nstep_sink_trace (inodes : List inode) (maxD minD limit : Int)
    (fills : Nat → Int) (st : nrun) :
    ∃ x, (nstep inodes maxD minD limit fills st).sink_trace = st.sink_trace ++ [x] :=
  ⟨_, rfl⟩

theorem nloop_sink_trace_prefix (inodes : List inode) (maxD minD limit : Int)
    (fills : Nat → Int) (st : nrun) :
    ∃ tail, (nloop inodes maxD minD limit fills st).sink_trace = st.sink_trace ++ tail := by
  have hinv := nloopAux_invariant inodes maxD minD limit fills
    (fun s => ∃ tail, s.sink_trace = st.sink_trace ++ tail)
    (fun s _ hP => by
      obtain ⟨t, ht⟩ := hP
      obtain ⟨x, hx⟩ := nstep_sink_trace inodes maxD minD limit fills s
      exact ⟨t ++ [x], by rw [hx, ht, List.append_assoc]⟩)
    st.index.length st ⟨[], (List.append_nil _).symm⟩
  exact hinv

theorem nilsimsa_run_no_empty (fo : file_order_options) (first : Nat) (fills : Nat → Int)
    (inodes : List inode)
    (hB : (List.range inodes.length).filter
      (not ∘ (fun q => decide (0 < (fetch inodes q).sizeD))) = [])
    (hA : (List.range inodes.length).filter
      (fun q => decide (0 < (fetch inodes q).sizeD)) ≠ []) :
    nilsimsa_run fo first fills inodes =
      nloop inodes (fo.nilsimsa_depth : Int)
        (min (fo.nilsimsa_min_depth : Int) (fo.nilsimsa_depth : Int))
        (fo.nilsimsa_limit : Int) fills
        (finalize_inode inodes fills
          ⟨[], [],
           ((List.range inodes.length).filter
             (fun q => decide (0 < (fetch inodes q).sizeD))).insertionSort
               (presort_le inodes),
           first, (fo.nilsimsa_depth : Int), 0, []⟩).2 := by
  unfold nilsimsa_run
  rw [List.partition_eq_filter_filter]
  dsimp only
  rw [hB]
  simp only [List.isEmpty_nil, if_true, List.append_nil]
  rw [if_neg (fun h => hA (List.isEmpty_iff.mp h))]

theorem nilsimsa_run_one_empty (fo : file_order_options) (first : Nat) (fills : Nat → Int)
    (inodes : List inode) (q1 : Nat)
    (hB : (List.range inodes.length).filter
      (not ∘ (fun q => decide (0 < (fetch inodes q).sizeD))) = [q1])
    (hA : (List.range inodes.length).filter
      (fun q => decide (0 < (fetch inodes q).sizeD)) ≠ []) :
    nilsimsa_run fo first fills inodes =
      nloop inodes (fo.nilsimsa_depth : Int)
        (min (fo.nilsimsa_min_depth : Int) (fo.nilsimsa_depth : Int))
        (fo.nilsimsa_limit : Int) fills
        (finalize_inode inodes fills
          ⟨[(fetch inodes q1).set_num first], [(fetch inodes q1).set_num first],
           ((List.range inodes.length).filter
             (fun q => decide (0 < (fetch inodes q).sizeD))).insertionSort
               (presort_le inodes),
           first + 1, (fo.nilsimsa_depth : Int), 0, []⟩).2 := by
  unfold nilsimsa_run
  rw [List.partition_eq_filter_filter]
  dsimp only
  rw [hB]
  simp only [List.isEmpty_cons, Bool.false_eq_true, if_false, finalize_inode,
    List.getLastD_concat, List.dropLast_concat, List.nil_append]
  rw [if_neg (fun h => hA (List.isEmpty_iff.mp h))]

theorem nilsimsa_run_all_empty_one (fo : file_order_options) (first : Nat)
    (fills : Nat → Int) (inodes : List inode) (q1 : Nat)
    (hB : (List.range inodes.length).filter
      (not ∘ (fun q => decide (0 < (fetch inodes q).sizeD))) = [q1])
    (hA : (List.range inodes.length).filter
      (fun q => decide (0 < (fetch inodes q).sizeD)) = []) :
    nilsimsa_run fo first fills inodes =
      ⟨[(fetch inodes q1).set_num first], [(fetch inodes q1).set_num first], [],
       first + 1, (fo.nilsimsa_depth : Int), 0, []⟩ := by
  unfold nilsimsa_run
  rw [List.partition_eq_filter_filter]
  dsimp only
  rw [hB, hA]
  simp only [List.isEmpty_cons, Bool.false_eq_true, if_false, finalize_inode,
    List.getLastD_concat, List.dropLast_concat, List.nil_append]
  simp [List.getLastD]

theorem nilsimsa_run_nil (fo : file_order_options) (first : Nat)
    (fills : Nat → Int) (inodes : List inode)
    (hB : (List.range inodes.length).filter
      (not ∘ (fun q => decide (0 < (fetch inodes q).sizeD))) = [])
    (hA : (List.range inodes.length).filter
      (fun q => decide (0 < (fetch inodes q).sizeD)) = []) :
    nilsimsa_run fo first fills inodes =
      ⟨[], [], [], first, (fo.nilsimsa_depth : Int), 0, []⟩ := by
  unfold nilsimsa_run
  rw [List.partition_eq_filter_filter]
  dsimp only
  rw [hB, hA]
  simp only [List.isEmpty_nil, if_true, List.append_nil]

theorem set_num_sizeD (i : inode) (n : Nat) : (i.set_num n).sizeD = i.sizeD := rfl

theorem set_num_nameD (i : inode) (n : Nat) : (i.set_num n).nameD = i.nameD := rfl

theorem set_num_pathD (i : inode) (n : Nat) : (i.set_num n).pathD = i.pathD := rfl

theorem empty_positions_count (inodes : List inode) :
    ((List.range inodes.length).filter
      (not ∘ (fun q => decide (0 < (fetch inodes q).sizeD)))).length =
    List.countP (fun i => decide (i.sizeD = 0)) inodes := by
  rw [← List.countP_eq_length_filter]
  have h1 : List.countP (not ∘ (fun q => decide (0 < (fetch inodes q).sizeD)))
      (List.range inodes.length) =
      List.countP ((fun i => decide (i.sizeD = 0)) ∘ (fetch inodes))
        (List.range inodes.length) := by
    apply List.countP_congr
    intro q _
    simp only [Function.comp_apply, Bool.not_eq_true', decide_eq_false_iff_not,
      decide_eq_true_eq]
    omega
  rw [h1, ← List.countP_map, map_fetch_range]

theorem pos_in_filter (inodes : List inode) (i : inode) (hi : i ∈ inodes)
    (hpos : 0 < i.sizeD) :
    ∃ q, q ∈ (List.range inodes.length).filter
      (fun q => decide (0 < (fetch inodes q).sizeD)) ∧ fetch inodes q = i := by
  obtain ⟨q, hq, hfq⟩ := mem_fetch inodes i hi
  refine ⟨q, List.mem_filter.mpr ⟨List.mem_range.mpr hq, ?_⟩, hfq⟩
  rw [hfq]
  exact decide_eq_true hpos

theorem empty_in_filter (inodes : List inode) (i : inode) (hi : i ∈ inodes)
    (hz : i.sizeD = 0) :
    ∃ q, q ∈ (List.range inodes.length).filter
      (not ∘ (fun q => decide (0 < (fetch inodes q).sizeD))) ∧ fetch inodes q = i := by
  obtain ⟨q, hq, hfq⟩ := mem_fetch inodes i hi
  refine ⟨q, List.mem_filter.mpr ⟨List.mem_range.mpr hq, ?_⟩, hfq⟩
  simp [Function.comp, hfq, hz]

theorem sortA_ne_nil (inodes : List inode)
    (hA : (List.range inodes.length).filter
      (fun q => decide (0 < (fetch inodes q).sizeD)) ≠ []) :
    ((List.range inodes.length).filter
      (fun q => decide (0 < (fetch inodes q).sizeD))).insertionSort
        (presort_le inodes) ≠ [] := by
  intro h
  have hperm := List.perm_insertionSort (presort_le inodes)
    ((List.range inodes.length).filter (fun q => decide (0 < (fetch inodes q).sizeD)))
  rw [h] at hperm
  exact hA hperm.symm.eq_nil

theorem sortA_getLast_pos (inodes : List inode)
    (hA : (List.range inodes.length).filter
      (fun q => decide (0 < (fetch inodes q).sizeD)) ≠ []) :
    0 < (fetch inodes
      ((((List.range inodes.length).filter
        (fun q => decide (0 < (fetch inodes q).sizeD))).insertionSort
          (presort_le inodes)).getLastD 0)).sizeD := by
  have hsa := sortA_ne_nil inodes hA
  have hq0 := getLastD_mem _ 0 hsa
  have hq0A := (List.perm_insertionSort (presort_le inodes) _).mem_iff.mp hq0
  have := (List.mem_filter.mp hq0A).2
  exact of_decide_eq_true this

theorem sortA_getLast_max (inodes : List inode)
    (hA : (List.range inodes.length).filter
      (fun q => decide (0 < (fetch inodes q).sizeD)) ≠ [])
    (q : Nat)
    (hq : q ∈ (List.range inodes.length).filter
      (fun q => decide (0 < (fetch inodes q).sizeD))) :
    presort_le inodes q
      ((((List.range inodes.length).filter
        (fun q => decide (0 < (fetch inodes q).sizeD))).insertionSort
          (presort_le inodes)).getLastD 0) := by
  have hsa := sortA_ne_nil inodes hA
  have hsorted : (((List.range inodes.length).filter
      (fun q => decide (0 < (fetch inodes q).sizeD))).insertionSort
        (presort_le inodes)).Pairwise (presort_le inodes) :=
    List.sorted_insertionSort _ _
  exact pairwise_getLastD_max (presort_le inodes) (presort_le_refl inodes) _ 0 hsa hsorted q
    ((List.perm_insertionSort (presort_le inodes) _).mem_iff.mpr hq)

/-- C3 (amended): in NILSIMSA mode (with at most one empty inode, as the spec
requires), the first emitted non-empty inode is the one with maximal size,
ties broken by MINIMAL basename and then MINIMAL path — the presort comparator
orders size ascending but basename and path descending, and the seed is popped
from the index tail; and any empty inode is emitted before all non-empty
ones, receiving number `first_inode`. -/
theorem nilsimsa_seed_spec (scr : script) (opts : file_order_options)
    (first : Nat) (fills : Nat → Int) (inodes : List inode) (r : order_result)
    (hmode : opts.mode = .NILSIMSA)
    (hempty1 : List.countP (fun i => decide (i.sizeD = 0)) inodes ≤ 1)
    (hok : order_inodes scr opts first fills inodes = .ok r) :
    ((∃ i ∈ inodes, 0 < i.sizeD) →
      ∃ e, (r.sink_trace.filter (fun i => decide (0 < i.sizeD))).head? = some e ∧
        ∀ i ∈ inodes, 0 < i.sizeD →
          (i.sizeD < e.sizeD ∨ (i.sizeD = e.sizeD ∧
            (bytes_lt e.nameD i.nameD = true ∨
              (e.nameD = i.nameD ∧ bytes_le e.pathD i.pathD = true))))) ∧
    (∀ i ∈ inodes, i.sizeD = 0 → r.sink_trace.head? = some (i.set_num first)) := by
  have hdisp : order_inodes scr opts first fills inodes =
      order_inodes_by_nilsimsa opts first fills inodes := by
    unfold order_inodes
    rw [hmode]
  rw [hdisp] at hok
  unfold order_inodes_by_nilsimsa at hok
  by_cases h1 : inodes.any (fun i => i.files_.isEmpty) = true
  · rw [if_pos h1] at hok
    simp at hok
  rw [if_neg h1] at hok
  by_cases h2 : (nilsimsa_run opts first fills inodes).inodes_.length = inodes.length
  case neg =>
    rw [if_neg h2] at hok
    simp at hok
  rw [if_pos h2] at hok
  injection hok with hpay
  subst hpay
  dsimp only
  have hBlen : ((List.range inodes.length).filter
      (not ∘ (fun q => decide (0 < (fetch inodes q).sizeD)))).length ≤ 1 := by
    rw [empty_positions_count]
    exact hempty1
  cases hB : (List.range inodes.length).filter
      (not ∘ (fun q => decide (0 < (fetch inodes q).sizeD))) with
  | nil =>
    refine ⟨?_, ?_⟩
    · -- seed conclusion, no empty inode
      intro ⟨i0, hi0, hi0pos⟩
      obtain ⟨qi, hqiA, _⟩ := pos_in_filter inodes i0 hi0 hi0pos
      have hA : (List.range inodes.length).filter
          (fun q => decide (0 < (fetch inodes q).sizeD)) ≠ [] := by
        intro h
        rw [h] at hqiA
        exact List.not_mem_nil qi hqiA
      rw [nilsimsa_run_no_empty opts first fills inodes hB hA]
      obtain ⟨tail, htail⟩ := nloop_sink_trace_prefix inodes
        (opts.nilsimsa_depth : Int)
        (min (opts.nilsimsa_min_depth : Int) (opts.nilsimsa_depth : Int))
        (opts.nilsimsa_limit : Int) fills
        (finalize_inode inodes fills
          ⟨[], [],
           ((List.range inodes.length).filter
             (fun q => decide (0 < (fetch inodes q).sizeD))).insertionSort
               (presort_le inodes),
           first, (opts.nilsimsa_depth : Int), 0, []⟩).2
      rw [htail]
      refine ⟨(fetch inodes
        ((((List.range inodes.length).filter
          (fun q => decide (0 < (fetch inodes q).sizeD))).insertionSort
            (presort_le inodes)).getLastD 0)).set_num first, ?_, ?_⟩
      · -- head of filtered trace is the seed
        have hseedpos := sortA_getLast_pos inodes hA
        simp only [finalize_inode, List.nil_append, List.cons_append,
          List.filter_cons]
        rw [if_pos (by rw [set_num_sizeD]; exact decide_eq_true hseedpos)]
        exact List.head?_cons
      · -- maximality
        intro i hi hipos
        obtain ⟨q, hqA, hfq⟩ := pos_in_filter inodes i hi hipos
        have hle := sortA_getLast_max inodes hA q hqA
        unfold presort_le at hle
        rw [hfq] at hle
        simp only [set_num_sizeD, set_num_nameD, set_num_pathD]
        exact hle
    · -- no empty inode exists
      intro i hi hz
      obtain ⟨q, hqB, _⟩ := empty_in_filter inodes i hi hz
      rw [hB] at hqB
      exact absurd hqB (List.not_mem_nil q)
  | cons q1 B2 =>
    have hB2 : B2 = [] := by
      rw [hB] at hBlen
      simpa using hBlen
    subst hB2
    have hq1B : q1 ∈ (List.range inodes.length).filter
        (not ∘ (fun q => decide (0 < (fetch inodes q).sizeD))) := by
      rw [hB]
      simp
    have hq1z : (fetch inodes q1).sizeD = 0 := by
      have := (List.mem_filter.mp hq1B).2
      simp only [Function.comp_apply, Bool.not_eq_true', decide_eq_false_iff_not] at this
      omega
    by_cases hA : (List.range inodes.length).filter
        (fun q => decide (0 < (fetch inodes q).sizeD)) = []
    · -- only the single empty inode
      rw [nilsimsa_run_all_empty_one opts first fills inodes q1 hB hA]
      refine ⟨?_, ?_⟩
      · intro ⟨i0, hi0, hi0pos⟩
        obtain ⟨qi, hqiA, _⟩ := pos_in_filter inodes i0 hi0 hi0pos
        rw [hA] at hqiA
        exact absurd hqiA (List.not_mem_nil qi)
      · intro i hi hz
        obtain ⟨q, hqB, hfq⟩ := empty_in_filter inodes i hi hz
        rw [hB] at hqB
        have hq : q = q1 := by simpa using hqB
        subst hq
        rw [hfq]
        rfl
    · -- one empty inode plus non-empty ones
      rw [nilsimsa_run_one_empty opts first fills inodes q1 hB hA]
      obtain ⟨tail, htail⟩ := nloop_sink_trace_prefix inodes
        (opts.nilsimsa_depth : Int)
        (min (opts.nilsimsa_min_depth : Int) (opts.nilsimsa_depth : Int))
        (opts.nilsimsa_limit : Int) fills
        (finalize_inode inodes fills
          ⟨[(fetch inodes q1).set_num first], [(fetch inodes q1).set_num first],
           ((List.range inodes.length).filter
             (fun q => decide (0 < (fetch inodes q).sizeD))).insertionSort
               (presort_le inodes),
           first + 1, (opts.nilsimsa_depth : Int), 0, []⟩).2
      rw [htail]
      refine ⟨?_, ?_⟩
      · intro _
        refine ⟨(fetch inodes
          ((((List.range inodes.length).filter
            (fun q => decide (0 < (fetch inodes q).sizeD))).insertionSort
              (presort_le inodes)).getLastD 0)).set_num (first + 1), ?_, ?_⟩
        · have hseedpos := sortA_getLast_pos inodes hA
          simp only [finalize_inode, List.cons_append, List.nil_append,
            List.filter_cons]
          rw [if_neg (by rw [set_num_sizeD, hq1z]; simp)]
          rw [if_pos (by rw [set_num_sizeD]; exact decide_eq_true hseedpos)]
          exact List.head?_cons
        · intro i hi hipos
          obtain ⟨q, hqA, hfq⟩ := pos_in_filter inodes i hi hipos
          have hle := sortA_getLast_max inodes hA q hqA
          unfold presort_le at hle
          rw [hfq] at hle
          simp only [set_num_sizeD, set_num_nameD, set_num_pathD]
          exact hle
      · intro i hi hz
        obtain ⟨q, hqB, hfq⟩ := empty_in_filter inodes i hi hz
        rw [hB] at hqB
        have hq : q = q1 := by simpa using hqB
        subst hq
        rw [hfq]
        simp [finalize_inode]

/-- C3 counterexample: two same-size inodes with basenames `[120]` ("x", in
`cw1`) and `[121]` ("y", in `cw2`): the NILSIMSA run emits `cw1` first,
although `cw2` has the strictly greater basename, so the first emitted
non-empty inode does not maximize the composite key (size, basename, path) —
the basename tie-break is minimal, not maximal. -/
theorem nilsimsa_seed_cex :
    order_inodes cscript copts 0 (fun _ => 0) [cw1, cw2] =
      .ok ⟨[cw1.set_num 0, cw2.set_num 1], [cw1.set_num 0, cw2.set_num 1], [4]⟩ ∧
    cw1.sizeD = cw2.sizeD ∧
    bytes_lt cw1.nameD cw2.nameD = true := by
  decide

/-- C3 witness: the three-inode run (two non-empty with names "x" and "y",
one empty) emits the empty inode first with number 10, and the first
non-empty emitted inode is the size-maximal, basename-minimal one. -/
theorem nilsimsa_seed_spec_witness :
    ((∃ i ∈ [cw1, cw2, cempty], 0 < i.sizeD) →
      ∃ e, ((⟨[cempty.set_num 10, cw1.set_num 11, cw2.set_num 12],
          [cempty.set_num 10, cw1.set_num 11, cw2.set_num 12], [4]⟩ :
            order_result).sink_trace.filter (fun i => decide (0 < i.sizeD))).head? = some e ∧
        ∀ i ∈ [cw1, cw2, cempty], 0 < i.sizeD →
          (i.sizeD < e.sizeD ∨ (i.sizeD = e.sizeD ∧
            (bytes_lt e.nameD i.nameD = true ∨
              (e.nameD = i.nameD ∧ bytes_le e.pathD i.pathD = true))))) ∧
    (∀ i ∈ [cw1, cw2, cempty], i.sizeD = 0 →
      (⟨[cempty.set_num 10, cw1.set_num 11, cw2.set_num 12],
        [cempty.set_num 10, cw1.set_num 11, cw2.set_num 12], [4]⟩ :
          order_result).sink_trace.head? = some (i.set_num 10)) :=
  nilsimsa_seed_spec cscript copts 10 (fun _ => 0) [cw1, cw2, cempty] _
    rfl (by decide) (by decide)

/-! ## Helper lemmas: numbering, rotation, loop totality -/

theorem stripNum_set_num (i : inode) (n : Nat) : stripNum (i.set_num n) = stripNum i := rfl

theorem num_set_num (i : inode) (n : Nat) : (i.set_num n).num = n % 4294967296 := rfl

theorem number_inodes_map_strip : ∀ (first : Nat) (l : List inode),
    (number_inodes first l).map stripNum = l.map stripNum := by
  intro first l
  induction l generalizing first with
  | nil => rfl
  | cons x xs ih =>
    simp only [number_inodes, List.map_cons, stripNum_set_num]
    rw [ih (first + 1)]

theorem number_inodes_map_num : ∀ (first : Nat) (l : List inode),
    first + l.length ≤ 4294967296 →
    (number_inodes first l).map inode.num = List.range' first l.length := by
  intro first l
  induction l generalizing first with
  | nil =>
    intro _
    rfl
  | cons x xs ih =>
    intro hr
    simp only [number_inodes, List.map_cons, num_set_num, List.length_cons]
    rw [List.range'_succ]
    have h1 : first % 4294967296 = first := Nat.mod_eq_of_lt (by simp at hr; omega)
    rw [h1, ih (first + 1) (by simp at hr ⊢; omega)]

theorem for_each_inode_eq : ∀ (l : List inode), for_each_inode l = l := by
  have haux : ∀ (l acc : List inode), l.foldl (fun acc i => acc ++ [i]) acc = acc ++ l := by
    intro l
    induction l with
    | nil => intro acc; simp
    | cons x xs ih =>
      intro acc
      simp only [List.foldl_cons]
      rw [ih (acc ++ [x])]
      simp
  intro l
  rw [for_each_inode, haux l []]
  simp

theorem any_files_false (inodes : List inode) (hfiles : ∀ i ∈ inodes, i.files_ ≠ []) :
    inodes.any (fun i => i.files_.isEmpty) = false := by
  rw [List.any_eq_false]
  intro i hi
  simp only [List.isEmpty_eq_true]
  exact hfiles i hi

theorem getLastD_eq_getLast {α : Type} (l : List α) (d : α) (h : l ≠ []) :
    l.getLastD d = l.getLast h := by
  rw [List.getLastD_eq_getLast?, List.getLast?_eq_getLast l h]
  rfl

theorem rotate_one_perm (l : List Nat) (ix : Nat) : (rotate_one l ix).Perm l := by
  unfold rotate_one
  by_cases h : ix < l.length
  · rw [List.drop_eq_getElem_cons h]
    simp only [List.take_succ_cons, List.take_zero]
    conv_rhs => rw [← List.take_append_drop ix l, List.drop_eq_getElem_cons h]
    rw [List.append_assoc]
    exact List.Perm.append_left _ List.perm_append_comm
  · have hle : l.length ≤ ix := by omega
    rw [List.take_of_length_le hle, List.drop_eq_nil_of_le (by omega),
      List.drop_eq_nil_of_le hle]
    simp

theorem length_rotate_one (l : List Nat) (ix : Nat) :
    (rotate_one l ix).length = l.length := by
  simp [rotate_one]
  omega

theorem nstep_index (inodes : List inode) (maxD minD limit : Int)
    (fills : Nat → Int) (st : nrun) :
    (nstep inodes maxD minD limit fills st).index =
      (rotate_one st.index
        (find_similar_inode ((st.inodes_.getLastD defaultInode).nilsimsa_similarity_hash_)
          inodes st.index limit
          (if st.depth < (st.index.length : Int)
           then ((st.index.length : Int) - st.depth).toNat else 0)).1).dropLast := rfl

theorem nstep_index_length (inodes : List inode) (maxD minD limit : Int)
    (fills : Nat → Int) (st : nrun) :
    (nstep inodes maxD minD limit fills st).index.length = st.index.length - 1 := by
  rw [nstep_index, List.length_dropLast, length_rotate_one]

theorem nloopAux_index_nil (inodes : List inode) (maxD minD limit : Int)
    (fills : Nat → Int) :
    ∀ (fuel : Nat) (st : nrun), st.index.length ≤ fuel →
      (nloopAux inodes maxD minD limit fills fuel st).index = [] := by
  intro fuel
  induction fuel with
  | zero =>
    intro st h
    simp only [nloopAux]
    exact List.eq_nil_of_length_eq_zero (by omega)
  | succ fuel ih =>
    intro st h
    simp only [nloopAux]
    by_cases hidx : st.index = []
    · rw [if_pos hidx]
      exact hidx
    · rw [if_neg hidx]
      apply ih
      rw [nstep_index_length]
      have h0 : st.index.length ≠ 0 := fun h0 => hidx (List.eq_nil_of_length_eq_zero h0)
      omega

theorem finalize_totality_step (inodes : List inode) (first : Nat) (fills : Nat → Int)
    (st : nrun) (hidx : st.index ≠ [])
    (hio : st.inodes_ = st.sink_trace)
    (hno : st.inode_no = first + st.sink_trace.length)
    (hnum : st.sink_trace.map inode.num = List.range' first st.sink_trace.length)
    (hperm : ((st.sink_trace.map stripNum) ++
      (st.index.map (fun q => stripNum (fetch inodes q)))).Perm (inodes.map stripNum))
    (hlen : st.sink_trace.length + st.index.length = inodes.length)
    (hrange : first + inodes.length ≤ 4294967296) :
    ((finalize_inode inodes fills st).2.inodes_ =
      (finalize_inode inodes fills st).2.sink_trace) ∧
    (finalize_inode inodes fills st).2.inode_no =
      first + (finalize_inode inodes fills st).2.sink_trace.length ∧
    ((finalize_inode inodes fills st).2.sink_trace.map inode.num =
      List.range' first (finalize_inode inodes fills st).2.sink_trace.length) ∧
    (((finalize_inode inodes fills st).2.sink_trace.map stripNum) ++
      ((finalize_inode inodes fills st).2.index.map
        (fun q => stripNum (fetch inodes q)))).Perm (inodes.map stripNum) ∧
    (finalize_inode inodes fills st).2.sink_trace.length +
      (finalize_inode inodes fills st).2.index.length = inodes.length := by
  have hq : st.index = st.index.dropLast ++ [st.index.getLastD 0] := by
    rw [getLastD_eq_getLast st.index 0 hidx]
    exact (List.dropLast_append_getLast hidx).symm
  have hidxlen : 1 ≤ st.index.length := by
    cases hi : st.index with
    | nil => exact absurd hi hidx
    | cons a l => simp [hi]
  have hT : (finalize_inode inodes fills st).2.sink_trace =
      st.sink_trace ++ [(fetch inodes (st.index.getLastD 0)).set_num st.inode_no] := rfl
  have hI : (finalize_inode inodes fills st).2.index = st.index.dropLast := rfl
  have hreg : (finalize_inode inodes fills st).2.inodes_ =
      st.inodes_ ++ [(fetch inodes (st.index.getLastD 0)).set_num st.inode_no] := rfl
  have hN : (finalize_inode inodes fills st).2.inode_no = st.inode_no + 1 := rfl
  have hlt : st.sink_trace.length < inodes.length := by omega
  refine ⟨?_, ?_, ?_, ?_, ?_⟩
  · rw [hreg, hT, hio]
  · rw [hN, hT, List.length_append, hno]
    simp only [List.length_cons, List.length_nil]
    omega
  · rw [hT, List.map_append, hnum, List.length_append]
    simp only [List.map_cons, List.map_nil, List.length_cons, List.length_nil]
    rw [List.range'_1_concat]
    congr 1
    rw [num_set_num, hno]
    congr 1
    exact Nat.mod_eq_of_lt (by omega)
  · rw [hT, hI, List.map_append]
    simp only [List.map_cons, List.map_nil, stripNum_set_num]
    refine List.Perm.trans ?_ hperm
    rw [List.append_assoc]
    refine List.Perm.append_left _ ?_
    have hmapsplit : st.index.map (fun q => stripNum (fetch inodes q)) =
        st.index.dropLast.map (fun q => stripNum (fetch inodes q)) ++
          [stripNum (fetch inodes (st.index.getLastD 0))] := by
      conv_lhs => rw [hq]
      rw [List.map_append]
      rfl
    rw [hmapsplit]
    exact List.perm_append_comm
  · rw [hT, hI, List.length_append, List.length_dropLast]
    simp only [List.length_cons, List.length_nil]
    omega

theorem nstep_totality_step (inodes : List inode) (first : Nat)
    (maxD minD limit : Int) (fills : Nat → Int)
    (st : nrun) (hidx : st.index ≠ [])
    (hio : st.inodes_ = st.sink_trace)
    (hno : st.inode_no = first + st.sink_trace.length)
    (hnum : st.sink_trace.map inode.num = List.range' first st.sink_trace.length)
    (hperm : ((st.sink_trace.map stripNum) ++
      (st.index.map (fun q => stripNum (fetch inodes q)))).Perm (inodes.map stripNum))
    (hlen : st.sink_trace.length + st.index.length = inodes.length)
    (hrange : first + inodes.length ≤ 4294967296) :
    ((nstep inodes maxD minD limit fills st).inodes_ =
      (nstep inodes maxD minD limit fills st).sink_trace) ∧
    (nstep inodes maxD minD limit fills st).inode_no =
      first + (nstep inodes maxD minD limit fills st).sink_trace.length ∧
    ((nstep inodes maxD minD limit fills st).sink_trace.map inode.num =
      List.range' first (nstep inodes maxD minD limit fills st).sink_trace.length) ∧
    (((nstep inodes maxD minD limit fills st).sink_trace.map stripNum) ++
      ((nstep inodes maxD minD limit fills st).index.map
        (fun q => stripNum (fetch inodes q)))).Perm (inodes.map stripNum) ∧
    (nstep inodes maxD minD limit fills st).sink_trace.length +
      (nstep inodes maxD minD limit fills st).index.length = inodes.length := by
  have hrot : (rotate_one st.index
      (find_similar_inode ((st.inodes_.getLastD defaultInode).nilsimsa_similarity_hash_)
        inodes st.index limit
        (if st.depth < (st.index.length : Int)
         then ((st.index.length : Int) - st.depth).toNat else 0)).1).Perm st.index :=
    rotate_one_perm _ _
  have hrotne : rotate_one st.index
      (find_similar_inode ((st.inodes_.getLastD defaultInode).nilsimsa_similarity_hash_)
        inodes st.index limit
        (if st.depth < (st.index.length : Int)
         then ((st.index.length : Int) - st.depth).toNat else 0)).1 ≠ [] := by
    intro h
    have hlen0 := hrot.length_eq
    rw [h] at hlen0
    exact hidx (List.eq_nil_of_length_eq_zero hlen0.symm)
  exact finalize_totality_step inodes first fills
    { st with index := (rotate_one st.index
        (find_similar_inode ((st.inodes_.getLastD defaultInode).nilsimsa_similarity_hash_)
          inodes st.index limit
          (if st.depth < (st.index.length : Int)
           then ((st.index.length : Int) - st.depth).toNat else 0)).1) }
    hrotne hio hno hnum
    ((List.Perm.append_left _ (hrot.map _)).trans hperm)
    (by rw [length_rotate_one] at *; exact hlen)
    hrange

theorem nloop_totality_final (inodes : List inode) (first : Nat)
    (maxD minD limit : Int) (fills : Nat → Int) (st : nrun)
    (hrange : first + inodes.length ≤ 4294967296)
    (hio : st.inodes_ = st.sink_trace)
    (hno : st.inode_no = first + st.sink_trace.length)
    (hnum : st.sink_trace.map inode.num = List.range' first st.sink_trace.length)
    (hperm : ((st.sink_trace.map stripNum) ++
      (st.index.map (fun q => stripNum (fetch inodes q)))).Perm (inodes.map stripNum))
    (hlen : st.sink_trace.length + st.index.length = inodes.length) :
    (nloop inodes maxD minD limit fills st).inodes_ =
      (nloop inodes maxD minD limit fills st).sink_trace ∧
    (nloop inodes maxD minD limit fills st).sink_trace.map inode.num =
      List.range' first inodes.length ∧
    ((nloop inodes maxD minD limit fills st).sink_trace.map stripNum).Perm
      (inodes.map stripNum) := by
  have hInv := nloopAux_invariant inodes maxD minD limit fills
    (fun s => s.inodes_ = s.sink_trace ∧
      s.inode_no = first + s.sink_trace.length ∧
      (s.sink_trace.map inode.num = List.range' first s.sink_trace.length) ∧
      ((s.sink_trace.map stripNum) ++
        (s.index.map (fun q => stripNum (fetch inodes q)))).Perm (inodes.map stripNum) ∧
      s.sink_trace.length + s.index.length = inodes.length)
    (fun s hidx hP => nstep_totality_step inodes first maxD minD limit fills s hidx
      hP.1 hP.2.1 hP.2.2.1 hP.2.2.2.1 hP.2.2.2.2 hrange)
    st.index.length st ⟨hio, hno, hnum, hperm, hlen⟩
  have hnil := nloopAux_index_nil inodes maxD minD limit fills st.index.length st (le_refl _)
  obtain ⟨h1, _h2, h3, h4, h5⟩ := hInv
  unfold nloop
  refine ⟨h1, ?_, ?_⟩
  · have hlenfin : (nloopAux inodes maxD minD limit fills
        st.index.length st).sink_trace.length = inodes.length := by
      rw [hnil] at h5
      simpa using h5
    rw [← hlenfin]
    exact h3
  · rw [hnil] at h4
    simpa using h4

theorem insertionSort_ne_nil {α : Type} (r : α → α → Prop) [DecidableRel r]
    (l : List α) (h : l ≠ []) : l.insertionSort r ≠ [] := by
  intro hnil
  have hperm := List.perm_insertionSort r l
  rw [hnil] at hperm
  exact h hperm.symm.eq_nil

theorem nilsimsa_run_with_empty (fo : file_order_options) (first : Nat)
    (fills : Nat → Int) (inodes : List inode) (q1 : Nat) (B0 : List Nat)
    (hB : (List.range inodes.length).filter
      (not ∘ (fun q => decide (0 < (fetch inodes q).sizeD))) = B0 ++ [q1])
    (hAB0 : (List.range inodes.length).filter
      (fun q => decide (0 < (fetch inodes q).sizeD)) ++ B0 ≠ []) :
    nilsimsa_run fo first fills inodes =
      nloop inodes (fo.nilsimsa_depth : Int)
        (min (fo.nilsimsa_min_depth : Int) (fo.nilsimsa_depth : Int))
        (fo.nilsimsa_limit : Int) fills
        (finalize_inode inodes fills
          ⟨[(fetch inodes q1).set_num first], [(fetch inodes q1).set_num first],
           ((List.range inodes.length).filter
             (fun q => decide (0 < (fetch inodes q).sizeD)) ++ B0).insertionSort
               (presort_le inodes),
           first + 1, (fo.nilsimsa_depth : Int), 0, []⟩).2 := by
  unfold nilsimsa_run
  rw [List.partition_eq_filter_filter]
  dsimp only
  rw [hB, ← List.append_assoc]
  simp only [List.isEmpty_eq_true, List.append_eq_nil, List.cons_ne_self,
    and_false, if_false, finalize_inode, List.getLastD_concat, List.dropLast_concat,
    List.nil_append]
  rw [if_neg (fun h => hAB0 (by rw [h.1, h.2]; rfl))]

theorem nilsimsa_run_with_empty_only (fo : file_order_options) (first : Nat)
    (fills : Nat → Int) (inodes : List inode) (q1 : Nat) (B0 : List Nat)
    (hB : (List.range inodes.length).filter
      (not ∘ (fun q => decide (0 < (fetch inodes q).sizeD))) = B0 ++ [q1])
    (hAB0 : (List.range inodes.length).filter
      (fun q => decide (0 < (fetch inodes q).sizeD)) ++ B0 = []) :
    nilsimsa_run fo first fills inodes =
      ⟨[(fetch inodes q1).set_num first], [(fetch inodes q1).set_num first], [],
       first + 1, (fo.nilsimsa_depth : Int), 0, []⟩ := by
  unfold nilsimsa_run
  rw [List.partition_eq_filter_filter]
  dsimp only
  rw [hB, ← List.append_assoc, hAB0]
  simp only [List.isEmpty_eq_true, List.nil_append, List.cons_ne_self, if_false,
    finalize_inode, List.getLastD_concat, List.dropLast_concat]
  simp [List.getLastD]

theorem nilsimsa_run_totality (fo : file_order_options) (first : Nat)
    (fills : Nat → Int) (inodes : List inode)
    (hrange : first + inodes.length ≤ 4294967296) :
    (nilsimsa_run fo first fills inodes).inodes_ =
      (nilsimsa_run fo first fills inodes).sink_trace ∧
    (nilsimsa_run fo first fills inodes).sink_trace.map inode.num =
      List.range' first inodes.length ∧
    ((nilsimsa_run fo first fills inodes).sink_trace.map stripNum).Perm
      (inodes.map stripNum) := by
  have hABperm : ((List.range inodes.length).filter
      (fun q => decide (0 < (fetch inodes q).sizeD)) ++
      (List.range inodes.length).filter
        (not ∘ (fun q => decide (0 < (fetch inodes q).sizeD)))).Perm
      (List.range inodes.length) := List.filter_append_perm _ _
  have hmapeq : (List.range inodes.length).map (fun q => stripNum (fetch inodes q)) =
      inodes.map stripNum := by
    rw [show (fun q => stripNum (fetch inodes q)) = stripNum ∘ (fetch inodes) from rfl,
      ← List.map_map, map_fetch_range]
  rcases List.eq_nil_or_concat ((List.range inodes.length).filter
      (not ∘ (fun q => decide (0 < (fetch inodes q).sizeD)))) with hB | ⟨B0, q1, hB⟩
  · -- no empty inode
    by_cases hA : (List.range inodes.length).filter
        (fun q => decide (0 < (fetch inodes q).sizeD)) = []
    · rw [nilsimsa_run_nil fo first fills inodes hB hA]
      have hn : inodes.length = 0 := by
        have hlen := hABperm.length_eq
        rw [hA, hB] at hlen
        simpa using hlen.symm
      have hinil : inodes = [] := List.eq_nil_of_length_eq_zero hn
      rw [hinil]
      exact ⟨rfl, rfl, by simp⟩
    · rw [nilsimsa_run_no_empty fo first fills inodes hB hA]
      have hAperm : ((List.range inodes.length).filter
          (fun q => decide (0 < (fetch inodes q).sizeD))).Perm
          (List.range inodes.length) := by
        have h := hABperm
        rw [hB] at h
        simpa using h
      have hsortperm := List.perm_insertionSort (presort_le inodes)
        ((List.range inodes.length).filter (fun q => decide (0 < (fetch inodes q).sizeD)))
      have hsalen : (((List.range inodes.length).filter
          (fun q => decide (0 < (fetch inodes q).sizeD))).insertionSort
            (presort_le inodes)).length = inodes.length := by
        rw [hsortperm.length_eq, hAperm.length_eq, List.length_range]
      have h5 := finalize_totality_step inodes first fills
        ⟨[], [], ((List.range inodes.length).filter
          (fun q => decide (0 < (fetch inodes q).sizeD))).insertionSort
            (presort_le inodes), first, (fo.nilsimsa_depth : Int), 0, []⟩
        (insertionSort_ne_nil (presort_le inodes) _ hA) rfl (by simp) rfl
        (by
          simp only [List.map_nil, List.nil_append]
          have hchain := (hsortperm.map (fun q => stripNum (fetch inodes q))).trans
            (hAperm.map (fun q => stripNum (fetch inodes q)))
          rw [hmapeq] at hchain
          exact hchain)
        (by simpa using hsalen)
        hrange
      exact nloop_totality_final inodes first _ _ _ fills _ hrange
        h5.1 h5.2.1 h5.2.2.1 h5.2.2.2.1 h5.2.2.2.2
  · -- at least one empty inode, at position q1 (the last empty in the index)
    rw [List.concat_eq_append] at hB
    have hq1mem : q1 ∈ (List.range inodes.length).filter
        (not ∘ (fun q => decide (0 < (fetch inodes q).sizeD))) := by
      rw [hB]
      simp
    have hnpos : 0 < inodes.length := by
      have := (List.mem_filter.mp hq1mem).1
      have := List.mem_range.mp this
      omega
    have hfirstlt : first < 4294967296 := by omega
    have hABBperm : (((List.range inodes.length).filter
        (fun q => decide (0 < (fetch inodes q).sizeD)) ++ B0) ++ [q1]).Perm
        (List.range inodes.length) := by
      have h := hABperm
      rw [hB, ← List.append_assoc] at h
      exact h
    by_cases hAB0 : (List.range inodes.length).filter
        (fun q => decide (0 < (fetch inodes q).sizeD)) ++ B0 = []
    · rw [nilsimsa_run_with_empty_only fo first fills inodes q1 B0 hB hAB0]
      have hn1 : inodes.length = 1 := by
        have hlen := hABBperm.length_eq
        rw [hAB0] at hlen
        simpa using hlen.symm
      refine ⟨rfl, ?_, ?_⟩
      · rw [hn1]
        simp only [List.map_cons, List.map_nil, num_set_num]
        rw [Nat.mod_eq_of_lt hfirstlt]
        rfl
      · have hq1perm : ([q1] : List Nat).Perm (List.range inodes.length) := by
          have h := hABBperm
          rw [hAB0] at h
          simpa using h
        have := hq1perm.map (fun q => stripNum (fetch inodes q))
        rw [hmapeq] at this
        simpa [stripNum_set_num] using this
    · rw [nilsimsa_run_with_empty fo first fills inodes q1 B0 hB hAB0]
      have hsortperm := List.perm_insertionSort (presort_le inodes)
        ((List.range inodes.length).filter
          (fun q => decide (0 < (fetch inodes q).sizeD)) ++ B0)
      have hsalen : ((((List.range inodes.length).filter
          (fun q => decide (0 < (fetch inodes q).sizeD))) ++ B0).insertionSort
            (presort_le inodes)).length + 1 = inodes.length := by
        rw [hsortperm.length_eq]
        have hlen := hABBperm.length_eq
        simp only [List.length_append, List.length_cons, List.length_nil,
          List.length_range] at hlen
        simp only [List.length_append]
        omega
      have h5 := finalize_totality_step inodes first fills
        ⟨[(fetch inodes q1).set_num first], [(fetch inodes q1).set_num first],
         (((List.range inodes.length).filter
           (fun q => decide (0 < (fetch inodes q).sizeD))) ++ B0).insertionSort
             (presort_le inodes),
         first + 1, (fo.nilsimsa_depth : Int), 0, []⟩
        (insertionSort_ne_nil (presort_le inodes) _ hAB0) rfl (by simp)
        (by
          simp only [List.map_cons, List.map_nil, num_set_num, List.length_cons,
            List.length_nil]
          rw [Nat.mod_eq_of_lt hfirstlt]
          rfl)
        (by
          simp only [List.map_cons, List.map_nil, stripNum_set_num]
          have hchain := (hsortperm.map (fun q => stripNum (fetch inodes q)))
          have hstep1 : ([stripNum (fetch inodes q1)] ++
              ((((List.range inodes.length).filter
                (fun q => decide (0 < (fetch inodes q).sizeD))) ++ B0).insertionSort
                  (presort_le inodes)).map (fun q => stripNum (fetch inodes q))).Perm
              ([stripNum (fetch inodes q1)] ++
                (((List.range inodes.length).filter
                  (fun q => decide (0 < (fetch inodes q).sizeD))) ++ B0).map
                    (fun q => stripNum (fetch inodes q))) :=
            List.Perm.append_left _ hchain
          have hstep2 : ([stripNum (fetch inodes q1)] ++
              (((List.range inodes.length).filter
                (fun q => decide (0 < (fetch inodes q).sizeD))) ++ B0).map
                  (fun q => stripNum (fetch inodes q))).Perm
              ((((List.range inodes.length).filter
                (fun q => decide (0 < (fetch inodes q).sizeD))) ++ B0).map
                  (fun q => stripNum (fetch inodes q)) ++ [stripNum (fetch inodes q1)]) :=
            List.perm_append_comm
          have hstep3 : (((List.range inodes.length).filter
              (fun q => decide (0 < (fetch inodes q).sizeD))) ++ B0).map
                (fun q => stripNum (fetch inodes q)) ++ [stripNum (fetch inodes q1)] =
              ((((List.range inodes.length).filter
                (fun q => decide (0 < (fetch inodes q).sizeD))) ++ B0) ++ [q1]).map
                  (fun q => stripNum (fetch inodes q)) := by
            simp [List.map_append]
          have hstep5 : ((((List.range inodes.length).filter
              (fun q => decide (0 < (fetch inodes q).sizeD))) ++ B0).map
                (fun q => stripNum (fetch inodes q)) ++
                  [stripNum (fetch inodes q1)]).Perm (inodes.map stripNum) := by
            rw [hstep3]
            have h := hABBperm.map (fun q => stripNum (fetch inodes q))
            rw [hmapeq] at h
            exact h
          exact (hstep1.trans hstep2).trans hstep5)
        (by
          simp only [List.length_cons, List.length_nil]
          omega)
        hrange
      exact nloop_totality_final inodes first _ _ _ fills _ hrange
        h5.1 h5.2.1 h5.2.2.1 h5.2.2.2.1 h5.2.2.2.2

theorem map_num_range'_get (l : List inode) (first n : Nat)
    (h : l.map inode.num = List.range' first n) :
    ∀ (k : Nat) (hk : k < l.length), (l.get ⟨k, hk⟩).num = first + k := by
  intro k hk
  have hlen : l.length = n := by
    have hc := congrArg List.length h
    simpa using hc
  have e1 : (l.map inode.num).getD k 0 = (l.get ⟨k, hk⟩).num := by
    rw [List.getD_eq_get _ _ (by simpa using hk)]
    simp [List.get_map]
  have e2 : (l.map inode.num).getD k 0 = first + k := by
    rw [h, List.getD_eq_get _ _ (by simp; omega)]
    simp [List.getElem_range']
  rw [← e1, e2]

/-- C1: for every ordering mode, after `order_inodes` succeeds, the sink was
invoked exactly once per inode (the trace is a permutation of the input, up to
the assigned numbers), and the assigned numbers, in emission order, are
exactly the contiguous range `[first_inode, first_inode + count)` — in
particular all distinct. -/
theorem order_inodes_totality (scr : script) (opts : file_order_options)
    (first : Nat) (fills : Nat → Int) (inodes : List inode)
    (hfiles : ∀ i ∈ inodes, i.files_ ≠ [])
    (hscript : opts.mode = .SCRIPT → scr.has_order = true ∧ (scr.order inodes).Perm inodes)
    (hrange : first + inodes.length ≤ 4294967296) :
    ∃ r, order_inodes scr opts first fills inodes = .ok r ∧
      r.sink_trace.map inode.num = List.range' first inodes.length ∧
      (r.sink_trace.map inode.num).Nodup ∧
      (r.sink_trace.map stripNum).Perm (inodes.map stripNum) := by
  have hany := any_files_false inodes hfiles
  cases hmode : opts.mode with
  | NONE =>
    refine ⟨⟨number_inodes first inodes, number_inodes first inodes, []⟩, ?_, ?_, ?_, ?_⟩
    · unfold order_inodes
      rw [hmode]
    · exact number_inodes_map_num first inodes hrange
    · rw [number_inodes_map_num first inodes hrange]
      exact List.nodup_range' first inodes.length
    · rw [number_inodes_map_strip]
  | PATH =>
    have hperm := List.perm_insertionSort path_le inodes
    refine ⟨⟨number_inodes first (inodes.insertionSort path_le),
      number_inodes first (inodes.insertionSort path_le), []⟩, ?_, ?_, ?_, ?_⟩
    · have hdisp : order_inodes scr opts first fills inodes =
          (order_inodes_by_path inodes).map (fun l =>
            let numbered := number_inodes first l
            ⟨numbered, numbered, []⟩) := by
        unfold order_inodes
        rw [hmode]
      rw [hdisp]
      unfold order_inodes_by_path
      rw [if_neg (by simp [hany])]
      rfl
    · rw [number_inodes_map_num _ _ (by rw [hperm.length_eq]; exact hrange),
        hperm.length_eq]
    · rw [number_inodes_map_num _ _ (by rw [hperm.length_eq]; exact hrange)]
      exact List.nodup_range' _ _
    · rw [number_inodes_map_strip]
      exact hperm.map stripNum
  | SCRIPT =>
    obtain ⟨hord, hsp⟩ := hscript hmode
    refine ⟨⟨number_inodes first (scr.order inodes),
      number_inodes first (scr.order inodes), []⟩, ?_, ?_, ?_, ?_⟩
    · have hdisp : order_inodes scr opts first fills inodes =
          (if scr.has_order = true then
            Except.ok ⟨number_inodes first (scr.order inodes),
              number_inodes first (scr.order inodes), []⟩
          else .error (.runtime_error "script cannot order inodes")) := by
        unfold order_inodes
        rw [hmode]
      rw [hdisp, if_pos hord]
    · rw [number_inodes_map_num _ _ (by rw [hsp.length_eq]; exact hrange),
        hsp.length_eq]
    · rw [number_inodes_map_num _ _ (by rw [hsp.length_eq]; exact hrange)]
      exact List.nodup_range' _ _
    · rw [number_inodes_map_strip]
      exact hsp.map stripNum
  | SIMILARITY =>
    have hperm := List.perm_insertionSort sim_le inodes
    refine ⟨⟨number_inodes first (inodes.insertionSort sim_le),
      number_inodes first (inodes.insertionSort sim_le), []⟩, ?_, ?_, ?_, ?_⟩
    · have hdisp : order_inodes scr opts first fills inodes =
          (order_inodes_by_similarity inodes).map (fun l =>
            let numbered := number_inodes first l
            ⟨numbered, numbered, []⟩) := by
        unfold order_inodes
        rw [hmode]
      rw [hdisp]
      unfold order_inodes_by_similarity
      rw [if_neg (by simp [hany])]
      rfl
    · rw [number_inodes_map_num _ _ (by rw [hperm.length_eq]; exact hrange),
        hperm.length_eq]
    · rw [number_inodes_map_num _ _ (by rw [hperm.length_eq]; exact hrange)]
      exact List.nodup_range' _ _
    · rw [number_inodes_map_strip]
      exact hperm.map stripNum
  | NILSIMSA =>
    have ht := nilsimsa_run_totality opts first fills inodes hrange
    have hlenr : (nilsimsa_run opts first fills inodes).inodes_.length = inodes.length := by
      rw [ht.1]
      have hc := congrArg List.length ht.2.1
      simpa using hc
    refine ⟨⟨(nilsimsa_run opts first fills inodes).inodes_,
      (nilsimsa_run opts first fills inodes).sink_trace,
      (nilsimsa_run opts first fills inodes).published⟩, ?_, ht.2.1, ?_, ht.2.2⟩
    · have hdisp : order_inodes scr opts first fills inodes =
          order_inodes_by_nilsimsa opts first fills inodes := by
        unfold order_inodes
        rw [hmode]
      rw [hdisp]
      unfold order_inodes_by_nilsimsa
      rw [if_neg (by simp [hany]), if_pos hlenr]
    · rw [ht.2.1]
      exact List.nodup_range' _ _

/-- C1 witness: the three-inode NILSIMSA run with `first_inode = 10` emits
every inode exactly once with numbers 10, 11, 12. -/
theorem order_inodes_totality_witness :
    ∃ r, order_inodes cscript copts 10 (fun _ => 0) [cw1, cw2, cempty] = .ok r ∧
      r.sink_trace.map inode.num = List.range' 10 [cw1, cw2, cempty].length ∧
      (r.sink_trace.map inode.num).Nodup ∧
      (r.sink_trace.map stripNum).Perm ([cw1, cw2, cempty].map stripNum) :=
  order_inodes_totality cscript copts 10 (fun _ => 0) [cw1, cw2, cempty]
    (by decide) (fun h => absurd h (by decide)) (by decide)

/-- C10: after `order_inodes` succeeds, in every mode, the registry's inode
sequence coincides with the sink invocation order, the inode stored at
position `k` carries number `first_inode + k`, and a subsequent
`for_each_inode` visits the inodes in exactly the order they were passed to
the sink. -/
theorem order_registry_emission (scr : script) (opts : file_order_options)
    (first : Nat) (fills : Nat → Int) (inodes : List inode) (r : order_result)
    (hfiles : ∀ i ∈ inodes, i.files_ ≠ [])
    (hscript : opts.mode = .SCRIPT → scr.has_order = true ∧ (scr.order inodes).Perm inodes)
    (hrange : first + inodes.length ≤ 4294967296)
    (hok : order_inodes scr opts first fills inodes = .ok r) :
    r.inodes_ = r.sink_trace ∧
    for_each_inode r.inodes_ = r.sink_trace ∧
    ∀ (k : Nat) (hk : k < r.inodes_.length), (r.inodes_.get ⟨k, hk⟩).num = first + k := by
  have hany := any_files_false inodes hfiles
  cases hmode : opts.mode with
  | NONE =>
    have hdisp : order_inodes scr opts first fills inodes =
        Except.ok ⟨number_inodes first inodes, number_inodes first inodes, []⟩ := by
      unfold order_inodes
      rw [hmode]
    rw [hdisp] at hok
    injection hok with hpay
    subst hpay
    dsimp only
    exact ⟨rfl, for_each_inode_eq _,
      map_num_range'_get _ first inodes.length (number_inodes_map_num first inodes hrange)⟩
  | PATH =>
    have hperm := List.perm_insertionSort path_le inodes
    have hdisp : order_inodes scr opts first fills inodes =
        (order_inodes_by_path inodes).map (fun l =>
          let numbered := number_inodes first l
          ⟨numbered, numbered, []⟩) := by
      unfold order_inodes
      rw [hmode]
    rw [hdisp] at hok
    unfold order_inodes_by_path at hok
    rw [if_neg (by simp [hany])] at hok
    simp only [Except.map] at hok
    injection hok with hpay
    subst hpay
    dsimp only
    refine ⟨rfl, for_each_inode_eq _, ?_⟩
    refine map_num_range'_get _ first inodes.length ?_
    rw [number_inodes_map_num _ _ (by rw [hperm.length_eq]; exact hrange),
      hperm.length_eq]
  | SCRIPT =>
    obtain ⟨hord, hsp⟩ := hscript hmode
    have hdisp : order_inodes scr opts first fills inodes =
        (if scr.has_order = true then
          Except.ok ⟨number_inodes first (scr.order inodes),
            number_inodes first (scr.order inodes), []⟩
        else .error (.runtime_error "script cannot order inodes")) := by
      unfold order_inodes
      rw [hmode]
    rw [hdisp, if_pos hord] at hok
    injection hok with hpay
    subst hpay
    dsimp only
    refine ⟨rfl, for_each_inode_eq _, ?_⟩
    refine map_num_range'_get _ first inodes.length ?_
    rw [number_inodes_map_num _ _ (by rw [hsp.length_eq]; exact hrange),
      hsp.length_eq]
  | SIMILARITY =>
    have hperm := List.perm_insertionSort sim_le inodes
    have hdisp : order_inodes scr opts first fills inodes =
        (order_inodes_by_similarity inodes).map (fun l =>
          let numbered := number_inodes first l
          ⟨numbered, numbered, []⟩) := by
      unfold order_inodes
      rw [hmode]
    rw [hdisp] at hok
    unfold order_inodes_by_similarity at hok
    rw [if_neg (by simp [hany])] at hok
    simp only [Except.map] at hok
    injection hok with hpay
    subst hpay
    dsimp only
    refine ⟨rfl, for_each_inode_eq _, ?_⟩
    refine map_num_range'_get _ first inodes.length ?_
    rw [number_inodes_map_num _ _ (by rw [hperm.length_eq]; exact hrange),
      hperm.length_eq]
  | NILSIMSA =>
    have ht := nilsimsa_run_totality opts first fills inodes hrange
    have hlenr : (nilsimsa_run opts first fills inodes).inodes_.length = inodes.length := by
      rw [ht.1]
      have hc := congrArg List.length ht.2.1
      simpa using hc
    have hdisp : order_inodes scr opts first fills inodes =
        order_inodes_by_nilsimsa opts first fills inodes := by
      unfold order_inodes
      rw [hmode]
    rw [hdisp] at hok
    unfold order_inodes_by_nilsimsa at hok
    rw [if_neg (by simp [hany]), if_pos hlenr] at hok
    injection hok with hpay
    subst hpay
    dsimp only
    refine ⟨ht.1, by rw [for_each_inode_eq]; exact ht.1, ?_⟩
    rw [ht.1]
    exact map_num_range'_get _ first inodes.length ht.2.1

/-- C10 witness: in the concrete three-inode NILSIMSA run the registry equals
the sink trace, `for_each_inode` revisits it identically, and position `k`
carries number `10 + k`. -/
theorem order_registry_emission_witness :
    (⟨[cempty.set_num 10, cw1.set_num 11, cw2.set_num 12],
      [cempty.set_num 10, cw1.set_num 11, cw2.set_num 12], [4]⟩ : order_result).inodes_ =
      (⟨[cempty.set_num 10, cw1.set_num 11, cw2.set_num 12],
        [cempty.set_num 10, cw1.set_num 11, cw2.set_num 12], [4]⟩ : order_result).sink_trace ∧
    for_each_inode (⟨[cempty.set_num 10, cw1.set_num 11, cw2.set_num 12],
      [cempty.set_num 10, cw1.set_num 11, cw2.set_num 12], [4]⟩ : order_result).inodes_ =
      (⟨[cempty.set_num 10, cw1.set_num 11, cw2.set_num 12],
        [cempty.set_num 10, cw1.set_num 11, cw2.set_num 12], [4]⟩ : order_result).sink_trace ∧
    ∀ (k : Nat) (hk : k < (⟨[cempty.set_num 10, cw1.set_num 11, cw2.set_num 12],
        [cempty.set_num 10, cw1.set_num 11, cw2.set_num 12], [4]⟩ :
          order_result).inodes_.length),
      ((⟨[cempty.set_num 10, cw1.set_num 11, cw2.set_num 12],
        [cempty.set_num 10, cw1.set_num 11, cw2.set_num 12], [4]⟩ :
          order_result).inodes_.get ⟨k, hk⟩).num = 10 + k :=
  order_registry_emission cscript copts 10 (fun _ => 0) [cw1, cw2, cempty] _
    (by decide) (fun h => absurd h (by decide)) (by decide) (by decide)
